import Mathlib

/-!
Verification of the sirix batch source-rewriting scripts.

Each Python script's per-file content transformation is embedded as a pure
function over `List Char`.  Python `re.sub` with a fixed-string pattern is
embedded as `replaceAll`; the capture-group patterns of
`fix_chronicle_imports.py` and `fix_node_tests.py` are embedded as bespoke
left-to-right scanners (`subArg`, `subBA`, `regexSub`) that mirror the
backtracking behaviour of the original patterns.
-/

namespace Spec2Proof

set_option maxRecDepth 8192

abbrev CS := List Char

def cs (s : String) : CS := s.toList

/-- Tests whether `x` starts with `pat` (Python `str.startswith`). -/
def stw : CS → CS → Bool
  | [], _ => true
  | _ :: _, [] => false
  | a :: p, b :: x => a == b && stw p x

/-- Tests whether `pat` occurs as a contiguous substring of `x` (Python `in`). -/
def containsSub (pat : CS) : CS → Bool
  | [] => stw pat []
  | x@(_ :: rest) => stw pat x || containsSub pat rest

theorem stw_le {p x : CS} (h : stw p x = true) : p.length ≤ x.length := by
  induction p generalizing x with
  | nil => simp
  | cons a p ih =>
    cases x with
    | nil => simp [stw] at h
    | cons b x =>
      simp only [stw, Bool.and_eq_true] at h
      simpa using ih h.2

/-- Replaces every non-overlapping occurrence of the fixed string `s` by `t`,
scanning left to right (Python `re.sub` with a fixed-string pattern). -/
def replaceAll (s t : CS) (x : CS) : CS :=
  if hs : s = [] then x
  else
    match x with
    | [] => []
    | c :: rest =>
      if stw s (c :: rest) then t ++ replaceAll s t ((c :: rest).drop s.length)
      else c :: replaceAll s t rest
termination_by x.length
decreasing_by
  · have hsl : 0 < s.length := List.length_pos.mpr hs
    simp only [List.length_drop, List.length_cons]
    omega
  · simp

/-- Splits on every newline character (Python `str.split` with a newline). -/
def splitNl : CS → List CS
  | [] => [[]]
  | c :: rest =>
    if c = '\n' then [] :: splitNl rest
    else
      match splitNl rest with
      | l :: ls => (c :: l) :: ls
      | [] => [[c]]

/-- Joins chunks with a separator (Python `sep.join`). -/
def joinWith (sep : CS) : List CS → CS
  | [] => []
  | [l] => l
  | l :: ls => l ++ sep ++ joinWith sep ls

def joinNl (ls : List CS) : CS := joinWith ['\n'] ls

def insertAt (n : Nat) (a : CS) (ls : List CS) : List CS :=
  ls.take n ++ [a] ++ ls.drop n

/-! Line-anchor scanning shared by `fix_bytes_imports.py` and
`fix_test_imports.py`: remember the index of the last line starting with
`import `, stop at the first `public class` / `final class` line. -/

def impMark : CS := cs "import "
def pubClassMark : CS := cs "public class"
def finClassMark : CS := cs "final class"
def pkgMark : CS := cs "package "

def scanImportIdx : Nat → Option Nat → List CS → Option Nat
  | _, acc, [] => acc
  | i, acc, l :: ls =>
    if stw impMark l then scanImportIdx (i + 1) (some i) ls
    else if stw pubClassMark l || stw finClassMark l then acc
    else scanImportIdx (i + 1) acc ls

def findPkgIdx : Nat → List CS → Option Nat
  | _, [] => none
  | i, l :: ls => if stw pkgMark l then some i else findPkgIdx (i + 1) ls

/-! Embedding of `fix_bytes_imports.py` (`fix_bytes_imports`).  The returned
Bool is the function's return value, which is `true` exactly when the file is
written back. -/

def bytesUsageMarker : CS := cs "Bytes.elasticHeapByteBuffer"
def bytesImportCheck : CS := cs "import io.sirix.node.Bytes"
def bytesImportStmt : CS := cs "import io.sirix.node.Bytes;"

def fixBytesContent (content : CS) : Bool × CS :=
  let usesBytes := containsSub bytesUsageMarker content
  let hasImport := containsSub bytesImportCheck content
  if !usesBytes || hasImport then (false, content)
  else
    let lines := splitNl content
    let idx :=
      match scanImportIdx 0 none lines with
      | some i => some i
      | none => (findPkgIdx 0 lines).map (· + 1)
    match idx with
    | some i => (true, joinNl (insertAt (i + 1) bytesImportStmt lines))
    | none => (false, content)

/-! Embedding of `fix_test_imports.py` (`fix_test_imports`).  Note that when
neither an import line nor a package line is found, the Python
`import_insert_idx` stays `-1` and `lines.insert(-1 + 1, ...)` inserts at
index 0; the reversed loop inserts the pending imports in order. -/

def outAdapterMarker : CS := cs "ChronicleBytesOutAdapter"
def inAdapterMarker : CS := cs "ChronicleBytesInAdapter"
def outAdapterImportCheck : CS := cs "import io.sirix.node.ChronicleBytesOutAdapter"
def inAdapterImportCheck : CS := cs "import io.sirix.node.ChronicleBytesInAdapter"
def outAdapterImportStmt : CS := cs "import io.sirix.node.ChronicleBytesOutAdapter;"
def inAdapterImportStmt : CS := cs "import io.sirix.node.ChronicleBytesInAdapter;"

def tiToAdd (content : CS) : List CS :=
  (if containsSub outAdapterMarker content && !containsSub outAdapterImportCheck content
    then [outAdapterImportStmt] else []) ++
  (if containsSub inAdapterMarker content && !containsSub inAdapterImportCheck content
    then [inAdapterImportStmt] else [])

def tiBase (content : CS) : Nat :=
  match scanImportIdx 0 none (splitNl content) with
  | some i => i + 1
  | none =>
    match findPkgIdx 0 (splitNl content) with
    | some i => i + 2
    | none => 0

def fixTestImportsContent (content : CS) : Bool × CS :=
  if !containsSub outAdapterMarker content && !containsSub inAdapterMarker content then
    (false, content)
  else if (tiToAdd content).isEmpty then (false, content)
  else
    (true, joinNl ((splitNl content).take (tiBase content) ++ tiToAdd content ++
      (splitNl content).drop (tiBase content)))

/-! Embedding of `fix_rewind_calls.py` (`fix_rewind_calls`): a fixed-string
substitution guarded by a search, written back only when the pattern occurs. -/

def rewindPat : CS := cs "bytes.underlyingObject().rewind()"
def rewindRepl : CS := cs "((java.nio.ByteBuffer) bytes.underlyingObject()).rewind()"

def fixRewindContent (content : CS) : Bool × CS :=
  if containsSub rewindPat content then (true, replaceAll rewindPat rewindRepl content)
  else (false, content)

/-! Embedding of `fix_test_adapters.py` (`fix_test_file`): two fixed-string
substitutions, then an unconditional write and `return True`. -/

def serPat : CS := cs ".serialize(data,"
def serRepl : CS := cs ".serialize(new ChronicleBytesOutAdapter(data),"
def deserPat : CS := cs ".deserialize(data,"
def deserRepl : CS := cs ".deserialize(new ChronicleBytesInAdapter(data),"

def fixAdaptersContent (content : CS) : Bool × CS :=
  (true, replaceAll deserPat deserRepl (replaceAll serPat serRepl content))

/-! Embedding of the capture-group pattern `...\(([^)]+)\)` used by the two
`computeHash` substitutions of `fix_chronicle_imports.py`: after the literal
head, `[^)]+` greedily takes the maximal run of characters other than a
closing parenthesis (the run must be nonempty) and the next character must be
the closing parenthesis. -/

theorem tw_add_dw (p : Char → Bool) (l : CS) :
    (l.takeWhile p).length + (l.dropWhile p).length = l.length := by
  have h := congrArg List.length (List.takeWhile_append_dropWhile p l)
  rw [List.length_append] at h
  exact h

theorem dw_le (p : Char → Bool) (l : CS) : (l.dropWhile p).length ≤ l.length := by
  have := tw_add_dw p l
  omega

def notRParen : Char → Bool := fun d => d != ')'

def grabArg (y : CS) : Option (CS × CS) :=
  match y.dropWhile notRParen with
  | ')' :: r =>
    if (y.takeWhile notRParen).isEmpty then none else some (y.takeWhile notRParen, r)
  | _ => none

theorem grabArg_sound {y a r : CS} (h : grabArg y = some (a, r)) :
    y = a ++ ')' :: r ∧ a ≠ [] := by
  unfold grabArg at h
  split at h
  next r0 heq =>
    split at h
    · exact absurd h (by simp)
    next hne =>
      simp only [Option.some.injEq, Prod.mk.injEq] at h
      obtain ⟨rfl, rfl⟩ := h
      constructor
      · conv_lhs => rw [← List.takeWhile_append_dropWhile notRParen y]
        rw [heq]
      · simpa [List.isEmpty_iff] using hne
  next heq => exact absurd h (by simp)

theorem grabArg_length {y : CS} {p : CS × CS} (h : grabArg y = some p) :
    p.2.length + 2 ≤ y.length := by
  obtain ⟨a, r⟩ := p
  obtain ⟨hy, hne⟩ := grabArg_sound h
  have := congrArg List.length hy
  have ha : 0 < a.length := List.length_pos.mpr hne
  simp only [List.length_append, List.length_cons] at this
  simp only []
  omega

/-- Scanner for `computeHash\(Bytes<ByteBuffer> ([^)]+)\)` (and its `final`
variant): at each position, if the literal head `po` matches and a capture
succeeds, emit `pn ++ arg ++ ")"` and continue after the match, else copy one
character and continue. -/
def subArg (po pn : CS) : CS → CS
  | [] => []
  | c :: rest =>
    if stw po (c :: rest) then
      match hg : grabArg ((c :: rest).drop po.length) with
      | some (arg, r) => pn ++ arg ++ ')' :: subArg po pn r
      | none => c :: subArg po pn rest
    else c :: subArg po pn rest
termination_by x => x.length
decreasing_by
  · have h2 := grabArg_length hg
    simp only [List.length_drop, List.length_cons] at h2 ⊢
    omega
  · simp
  · simp

def chOld : CS := cs "computeHash(Bytes<ByteBuffer> "
def chNew : CS := cs "computeHash(BytesOut<?> "
def chfOld : CS := cs "computeHash(final Bytes<ByteBuffer> "
def chfNew : CS := cs "computeHash(final BytesOut<?> "

/-! Embedding of the pattern `\bBytes\s+([a-zA-Z_][a-zA-Z0-9_]*)\s*=` with
replacement `BytesOut<?> \1 =`.  `\s` is embedded as the six ASCII whitespace
characters Python's `\s` matches on ASCII text. -/

def isWordChar (ch : Char) : Bool :=
  ('a' ≤ ch && ch ≤ 'z') || ('A' ≤ ch && ch ≤ 'Z') || ('0' ≤ ch && ch ≤ '9') || ch == '_'

def isIdentStart (ch : Char) : Bool :=
  ('a' ≤ ch && ch ≤ 'z') || ('A' ≤ ch && ch ≤ 'Z') || ch == '_'

def isPyWs (ch : Char) : Bool :=
  ch == ' ' || ch == '\t' || ch == '\n' || ch == '\r' || ch == '\x0b' || ch == '\x0c'

def bytesTok : CS := cs "Bytes"

/-- Attempts the `Bytes\s+ident\s*=` body (without the word-boundary test) at
the head of `x`; returns the captured identifier and the remainder after `=`.
The greedy `\s+`, identifier and `\s*` parts are maximal-munch, which agrees
with the backtracking regex because a shorter run always fails at the next
literal. -/
def baMatch (x : CS) : Option (CS × CS) :=
  if stw bytesTok x then
    if ((x.drop bytesTok.length).takeWhile isPyWs).isEmpty then none
    else
      match (x.drop bytesTok.length).dropWhile isPyWs with
      | [] => none
      | d :: tl =>
        if isIdentStart d then
          match ((d :: tl).dropWhile isWordChar).dropWhile isPyWs with
          | '=' :: y4 => some ((d :: tl).takeWhile isWordChar, y4)
          | _ => none
        else none
  else none

theorem baMatch_length {x : CS} {p : CS × CS} (h : baMatch x = some p) :
    p.2.length < x.length := by
  unfold baMatch at h
  split at h
  case isFalse => exact absurd h (by simp)
  case isTrue h1 =>
    split at h
    case isTrue => exact absurd h (by simp)
    case isFalse h2 =>
      split at h
      case h_1 => exact absurd h (by simp)
      case h_2 d tl heq1 =>
        split at h
        case isFalse => exact absurd h (by simp)
        case isTrue h4 =>
          split at h
          case h_2 => exact absurd h (by simp)
          case h_1 y4 heq2 =>
            simp only [Option.some.injEq] at h
            have hb : bytesTok.length ≤ x.length := stw_le h1
            have hbpos : 0 < bytesTok.length := by decide
            have e1 : (x.drop bytesTok.length).length = x.length - bytesTok.length := by
              simp [List.length_drop]
            have e2 : (d :: tl).length ≤ (x.drop bytesTok.length).length := by
              rw [← heq1]; exact dw_le _ _
            have e3 : ((d :: tl).dropWhile isWordChar).length ≤ (d :: tl).length :=
              dw_le _ _
            have e4 := congrArg List.length heq2
            have e5 := dw_le isPyWs ((d :: tl).dropWhile isWordChar)
            simp only [List.length_cons] at e2 e3 e4
            rcases h with rfl
            simp only []
            omega

def baRepl (idt : CS) : CS := cs "BytesOut<?> " ++ idt ++ cs " ="

/-- Driver for the `\bBytes\s+...\s*=` substitution: tracks the previous
character for the word-boundary test and scans left to right. -/
def subBA : Option Char → CS → CS
  | _, [] => []
  | prev, c :: rest =>
    if (match prev with | none => true | some p => !isWordChar p) then
      match hm : baMatch (c :: rest) with
      | some (idt, y4) => baRepl idt ++ subBA (some '=') y4
      | none => c :: subBA (some c) rest
    else c :: subBA (some c) rest
termination_by _ x => x.length
decreasing_by
  · have h2 := baMatch_length hm
    simpa using h2
  · simp
  · simp

/-! Embedding of the conditional removal of `import java.nio.ByteBuffer;` in
`fix_chronicle_imports.py`: `re.sub(r'import java\.nio\.ByteBuffer;\n?', '', content)`. -/

def bbImportLine : CS := cs "import java.nio.ByteBuffer;"

def removeBBImport : CS → CS
  | [] => []
  | c :: rest =>
    if hstw : stw bbImportLine (c :: rest) then
      match hr : (c :: rest).drop bbImportLine.length with
      | '\n' :: r => removeBBImport r
      | r => removeBBImport r
    else c :: removeBBImport rest
termination_by x => x.length
decreasing_by
  · have hle : bbImportLine.length ≤ (c :: rest).length := stw_le hstw
    have := congrArg List.length hr
    have hbb : 0 < bbImportLine.length := by decide
    simp only [List.length_drop, List.length_cons] at this hle ⊢
    omega
  · have hle : bbImportLine.length ≤ (c :: rest).length := stw_le hstw
    have := congrArg List.length hr
    have hbb : 0 < bbImportLine.length := by decide
    simp only [List.length_drop, List.length_cons] at this hle ⊢
    omega
  · simp

/-! Full embedding of `fix_chronicle_imports.py` (`fix_chronicle_imports`),
applying the eight substitutions in source order, then the guarded import
removal, then the changed check that gates the write-back. -/

def chronBytesImp : CS := cs "import net.openhft.chronicle.bytes.Bytes;"
def chronBytesInImp : CS := cs "import net.openhft.chronicle.bytes.BytesIn;"
def chronBytesOutImp : CS := cs "import net.openhft.chronicle.bytes.BytesOut;"
def sirixOutImp : CS := cs "import io.sirix.node.BytesOut;"
def sirixInImp : CS := cs "import io.sirix.node.BytesIn;"
def bbGeneric : CS := cs "Bytes<ByteBuffer>"
def byteArrGeneric : CS := cs "Bytes<byte[]>"
def bytesOutQ : CS := cs "BytesOut<?>"
def byteBufferTok : CS := cs "ByteBuffer"

def chronPipeline (content : CS) : CS :=
  let c1 := replaceAll chronBytesImp sirixOutImp content
  let c2 := replaceAll chronBytesInImp sirixInImp c1
  let c3 := replaceAll chronBytesOutImp sirixOutImp c2
  let c4 := subArg chOld chNew c3
  let c5 := subArg chfOld chfNew c4
  let c6 := replaceAll bbGeneric bytesOutQ c5
  let c7 := replaceAll byteArrGeneric bytesOutQ c6
  let c8 := subBA none c7
  if containsSub bbGeneric content && !containsSub bbGeneric c8 then
    if !containsSub byteBufferTok (replaceAll bytesOutQ [] c8) then removeBBImport c8
    else c8
  else c8

def fixChronicleContent (content : CS) : Bool × CS :=
  if chronPipeline content = content then (false, content)
  else (true, chronPipeline content)

/-! Embedding of the `fix_node_tests.py` pattern.  The regex is a sequence of
literals, `\d+` (maximal digit run, deterministic because the next pattern
character is not a digit), `(?:hash)?[Bb]` (deterministic because the two
alternatives can never both match locally), and non-greedy DOTALL `.*?` gaps.
A gap first tries the rest of the pattern here, then consumes one character
and retries, exactly like the backtracking engine. -/

inductive RTok where
  | lit : CS → RTok
  | digits : RTok
  | optHashB : RTok
  | gap : RTok

def hashTok : CS := cs "hash"

def isDigitCh (ch : Char) : Bool := '0' ≤ ch && ch ≤ '9'

def matchSeq : List RTok → CS → Option CS
  | [], y => some y
  | RTok.lit l :: ps, y => if stw l y then matchSeq ps (y.drop l.length) else none
  | RTok.digits :: ps, y =>
    if (y.takeWhile isDigitCh).isEmpty then none
    else matchSeq ps (y.dropWhile isDigitCh)
  | RTok.optHashB :: ps, y =>
    match (if stw hashTok y then y.drop hashTok.length else y) with
    | c :: yr => if c == 'B' || c == 'b' then matchSeq ps yr else none
    | [] => none
  | RTok.gap :: ps, y =>
    Option.orElse (matchSeq ps y)
      (fun _ =>
        match y with
        | [] => none
        | _ :: yr => matchSeq (RTok.gap :: ps) yr)
termination_by ps y => (ps.length, y.length)
decreasing_by
  all_goals first
    | (apply Prod.Lex.right; simp)
    | (apply Prod.Lex.left; simp)

theorem matchSeq_le : ∀ (ps : List RTok) (y r : CS), matchSeq ps y = some r →
    r.length ≤ y.length
  | [], y, r => by
    intro h
    rw [matchSeq] at h
    simp only [Option.some.injEq] at h
    simp [← h]
  | RTok.lit l :: ps, y, r => by
    intro h
    rw [matchSeq] at h
    split at h
    · have := matchSeq_le ps (y.drop l.length) r h
      simp only [List.length_drop] at this
      omega
    · exact absurd h (by simp)
  | RTok.digits :: ps, y, r => by
    intro h
    rw [matchSeq] at h
    split at h
    · exact absurd h (by simp)
    · have := matchSeq_le ps (y.dropWhile isDigitCh) r h
      have h2 := dw_le isDigitCh y
      omega
  | RTok.optHashB :: ps, y, r => by
    intro h
    rw [matchSeq] at h
    split at h
    next c yr heq =>
      split at h
      · have := matchSeq_le ps yr r h
        have h2 : yr.length + 1 ≤ y.length := by
          have h3 := congrArg List.length heq
          by_cases hs : stw hashTok y
          · rw [if_pos hs] at h3
            simp only [List.length_drop, List.length_cons] at h3
            have h4 := stw_le hs
            omega
          · rw [if_neg hs] at h3
            simp only [List.length_cons] at h3
            omega
        omega
      · exact absurd h (by simp)
    next heq => exact absurd h (by simp)
  | RTok.gap :: ps, y, r => by
    intro h
    rw [matchSeq.eq_def] at h
    simp only [] at h
    rcases hm : matchSeq ps y with _ | r0
    · rw [hm] at h
      simp only [Option.orElse] at h
      cases y with
      | nil => exact absurd h (by simp)
      | cons c yr =>
        have := matchSeq_le (RTok.gap :: ps) yr r h
        simp only [List.length_cons]
        omega
    · rw [hm] at h
      simp only [Option.orElse, Option.some.injEq] at h
      subst h
      exact matchSeq_le ps y r0 hm
termination_by ps y => (ps.length, y.length)
decreasing_by
  all_goals first
    | (apply Prod.Lex.right; simp)
    | (apply Prod.Lex.left; simp)

/-- Driver for `re.sub` with a pattern whose first element is the nonempty
literal `l0` followed by token sequence `ps`, and a constant replacement
(`\4` always captures the literal `check(node);`, so the replacement text is
fixed).  Scans left to right, replacing non-overlapping matches. -/
def regexSub (l0 : CS) (ps : List RTok) (repl : CS) : CS → CS
  | [] => []
  | c :: rest =>
    if l0.isEmpty then c :: rest
    else if hstw : stw l0 (c :: rest) then
      match hm : matchSeq ps ((c :: rest).drop l0.length) with
      | some r => repl ++ regexSub l0 ps repl r
      | none => c :: regexSub l0 ps repl rest
    else c :: regexSub l0 ps repl rest
termination_by x => x.length
decreasing_by
  · have h1 := matchSeq_le ps ((c :: rest).drop l0.length) r hm
    have h2 := stw_le hstw
    have h3 : 0 < l0.length := by
      cases l0 with
      | nil => simp_all
      | cons a l => simp
    simp only [List.length_drop, List.length_cons] at h1 h2 ⊢
    omega
  · simp
  · simp

def nodeL1 : CS := cs "var segment = (MemorySegment) data.asBytesIn().getUnderlying();"

def nodeG2a (cls : CS) : CS :=
  cs "final " ++ cls ++ cs " node = new " ++ cls ++ cs "(segment, "

def nodePs (cls : CS) : List RTok :=
  [RTok.gap, RTok.lit (nodeG2a cls), RTok.digits, RTok.lit (cs "L,"), RTok.gap,
   RTok.lit (cs ");"), RTok.gap, RTok.lit (cs "var "), RTok.optHashB,
   RTok.lit (cs "ytes = Bytes.elasticHeapByteBuffer();"), RTok.gap,
   RTok.lit (cs "node.setHash(node.computeHash("), RTok.optHashB, RTok.lit (cs "ytes));"),
   RTok.gap, RTok.lit (cs "check(node);")]

def spacesCS (n : Nat) : CS := List.replicate n ' '

def nodeRepl (cls kind : CS) : CS :=
  cs "// Deserialize to create node\n    final " ++ cls ++ cs " node = (" ++ cls
    ++ cs ") NodeKind." ++ kind ++ cs ".deserialize(data.asBytesIn(),\n"
    ++ spacesCS 79 ++ cs "13L,\n" ++ spacesCS 79 ++ cs "null,\n"
    ++ spacesCS 79 ++ cs "pageTrx.getResourceSession()\n"
    ++ spacesCS 86 ++ cs ".getResourceConfig());\n    check(node);"

/-- Node-type dispatch on the file basename, in the exact order of the Python
`if`/`elif` chain (substring membership tests). -/
def kindFor (b : CS) : Option (CS × CS) :=
  if containsSub (cs "BooleanNodeTest") b then some (cs "BooleanNode", cs "BOOLEAN_VALUE")
  else if containsSub (cs "NumberNodeTest") b && !containsSub (cs "ObjectNumber") b then
    some (cs "NumberNode", cs "NUMBER_VALUE")
  else if containsSub (cs "ObjectNumberNodeTest") b then
    some (cs "ObjectNumberNode", cs "OBJECT_NUMBER_VALUE")
  else if containsSub (cs "ObjectNodeTest") b then some (cs "ObjectNode", cs "OBJECT")
  else if containsSub (cs "ArrayNodeTest") b then some (cs "ArrayNode", cs "ARRAY")
  else if containsSub (cs "StringNodeTest") b && !containsSub (cs "ObjectString") b then
    some (cs "StringNode", cs "STRING_VALUE")
  else if containsSub (cs "ObjectStringNodeTest") b then
    some (cs "ObjectStringNode", cs "OBJECT_STRING_VALUE")
  else if containsSub (cs "ObjectBooleanNodeTest") b then
    some (cs "ObjectBooleanNode", cs "OBJECT_BOOLEAN_VALUE")
  else if containsSub (cs "NullNodeTest") b && !containsSub (cs "ObjectNull") b then
    some (cs "NullNode", cs "NULL_VALUE")
  else if containsSub (cs "ObjectNullNodeTest") b then
    some (cs "ObjectNullNode", cs "OBJECT_NULL_VALUE")
  else if containsSub (cs "ObjectKeyNodeTest") b then
    some (cs "ObjectKeyNode", cs "OBJECT_KEY")
  else none

/-- Embedding of `fix_node_tests.py` (`fix_test_file`): dispatch on the
basename, run the substitution, report changed iff the text differs. -/
def fixNodeTestsContent (basename content : CS) : Bool × CS :=
  match kindFor basename with
  | none => (false, content)
  | some (cls, kind) =>
    if regexSub nodeL1 (nodePs cls) (nodeRepl cls kind) content = content then
      (false, content)
    else (true, regexSub nodeL1 (nodePs cls) (nodeRepl cls kind) content)

/-! Batch-runner model.  A `SimFile` is a file handed to a batch loop by the
directory walk: reading it yields `readResult` (`none` models an I/O error
raised by `open`/`read`), and `writeOk = false` models an I/O error raised by
the write-back.  `fix_test_imports.py`'s `main` has no `try`/`except`, so an
exception escapes the loop (`runTestImportsBatch` in the `Except` monad);
the other scripts wrap the per-file body in `try`/`except`, printing a
diagnostic and moving on (`runCaughtBatch`). -/

structure SimFile where
  fid : Nat
  readResult : Option CS
  writeOk : Bool

def processTestImports (f : SimFile) : Except Nat Bool :=
  match f.readResult with
  | none => Except.error f.fid
  | some c =>
    let r := fixTestImportsContent c
    if r.1 && !f.writeOk then Except.error f.fid else Except.ok r.1

def runTestImportsBatch : Nat → List SimFile → Except Nat Nat
  | acc, [] => Except.ok acc
  | acc, f :: fs =>
    match processTestImports f with
    | Except.error e => Except.error e
    | Except.ok ch => runTestImportsBatch (acc + if ch then 1 else 0) fs

def processCaught (fix : CS → Bool × CS) (f : SimFile) : Bool :=
  match f.readResult with
  | none => false
  | some c =>
    let r := fix c
    if r.1 && !f.writeOk then false else r.1

def runCaughtBatch (fix : CS → Bool × CS) : Nat → List SimFile → Nat
  | acc, [] => acc
  | acc, f :: fs => runCaughtBatch fix (acc + if processCaught fix f then 1 else 0) fs

/-! Concrete inputs used by the counterexample and code-bug theorems. -/

def c1Cex : CS := cs "computeHash(Bytes<ByteBuffer> computeHash(Bytes<ByteBuffer> x)"

def c1fCex : CS :=
  cs "computeHash(final Bytes<ByteBuffer> computeHash(final Bytes<ByteBuffer> x)"

def c2Cex : CS :=
  cs "import net.openhft.chronicle.bytes.Bytes;\nimport net.openhft.chronicle.bytes.BytesOut;"

def c3Cex : CS := cs "package a;\nBytes.elasticHeapByteBuffer()"

def c4Cex : CS := cs "foo ChronicleBytesOutAdapter bar"

def c5Cex : CS := cs "package a;"

def c6FailingInput : CS := cs "import java.nio.ByteBuffer;\ncomputeHash(Bytes<ByteBuffer> x)\n"

def c7Content : CS := cs "foo ChronicleBytesOutAdapter bar"

def c8Cex : CS :=
  cs "package a;\nimport io.sirix.node.BytesOut;\nBytes.elasticHeapByteBuffer"

/-! Characterisations of the string primitives. -/

theorem stw_iff {p x : CS} : stw p x = true ↔ ∃ v, x = p ++ v := by
  induction p generalizing x with
  | nil => simp [stw]
  | cons a p ih =>
    cases x with
    | nil => simp [stw]
    | cons b x =>
      simp only [stw, Bool.and_eq_true, beq_iff_eq]
      constructor
      · rintro ⟨rfl, h⟩
        obtain ⟨v, rfl⟩ := ih.mp h
        exact ⟨v, rfl⟩
      · rintro ⟨v, hv⟩
        rw [List.cons_append] at hv
        obtain ⟨rfl, rfl⟩ : a = b ∧ x = p ++ v := by
          constructor
          · exact (List.cons.injEq _ _ _ _ ▸ hv).1.symm
          · exact (List.cons.injEq _ _ _ _ ▸ hv).2
        exact ⟨rfl, ih.mpr ⟨v, rfl⟩⟩

theorem stw_append {p u : CS} (w : CS) (h : stw p u = true) : stw p (u ++ w) = true := by
  obtain ⟨v, rfl⟩ := stw_iff.mp h
  exact stw_iff.mpr ⟨v ++ w, by simp⟩

theorem containsSub_iff {p x : CS} : containsSub p x = true ↔ ∃ u v, x = u ++ p ++ v := by
  induction x with
  | nil =>
    simp only [containsSub]
    rw [stw_iff]
    constructor
    · rintro ⟨v, hv⟩
      exact ⟨[], v, by simpa using hv⟩
    · rintro ⟨u, v, huv⟩
      have hu : u = [] := by
        cases u with
        | nil => rfl
        | cons a u => simp at huv
      subst hu
      exact ⟨v, by simpa using huv⟩
  | cons c rest ih =>
    simp only [containsSub, Bool.or_eq_true]
    constructor
    · rintro (h | h)
      · obtain ⟨v, hv⟩ := stw_iff.mp h
        exact ⟨[], v, by simpa using hv⟩
      · obtain ⟨u, v, huv⟩ := ih.mp h
        exact ⟨c :: u, v, by simp [huv]⟩
    · rintro ⟨u, v, huv⟩
      cases u with
      | nil =>
        left
        exact stw_iff.mpr ⟨v, by simpa using huv⟩
      | cons a u =>
        right
        simp only [List.cons_append, List.cons.injEq] at huv
        exact ih.mpr ⟨u, v, huv.2⟩

theorem containsSub_nil {p : CS} (h : p ≠ []) : containsSub p [] = false := by
  cases p with
  | nil => exact absurd rfl h
  | cons a p => simp [containsSub, stw]

theorem containsSub_append_left {p q : CS} (u : CS) (h : containsSub p q = true) :
    containsSub p (u ++ q) = true := by
  obtain ⟨a, v, rfl⟩ := containsSub_iff.mp h
  exact containsSub_iff.mpr ⟨u ++ a, v, by simp⟩

theorem containsSub_append_right {p q : CS} (v : CS) (h : containsSub p q = true) :
    containsSub p (q ++ v) = true := by
  obtain ⟨a, b, rfl⟩ := containsSub_iff.mp h
  exact containsSub_iff.mpr ⟨a, b ++ v, by simp⟩

theorem containsSub_of_stw {p x : CS} (h : stw p x = true) : containsSub p x = true := by
  obtain ⟨v, rfl⟩ := stw_iff.mp h
  exact containsSub_iff.mpr ⟨[], v, by simp⟩

theorem containsSub_mono_pat {q p x : CS} (hp : stw q p = true)
    (h : containsSub p x = true) : containsSub q x = true := by
  obtain ⟨w, rfl⟩ := stw_iff.mp hp
  obtain ⟨u, v, rfl⟩ := containsSub_iff.mp h
  exact containsSub_iff.mpr ⟨u, w ++ v, by simp⟩

/-- Splitting an occurrence of `s` across an append: the occurrence lies
inside `p`, inside `q`, or spans the boundary with a nonempty proper
pattern-prefix ending `p` and the matching pattern-suffix starting `q`. -/
theorem occ_append {s p q : CS} (h : containsSub s (p ++ q) = true) :
    containsSub s p = true ∨ containsSub s q = true ∨
    ∃ k, 0 < k ∧ k < s.length ∧ (∃ a, p = a ++ s.take k) ∧ stw (s.drop k) q = true := by
  obtain ⟨u, v, he⟩ := containsSub_iff.mp h
  rw [List.append_assoc] at he
  have htake := congrArg (List.take p.length) he
  rw [List.take_left] at htake
  have hdrop := congrArg (List.drop p.length) he
  rw [List.drop_left] at hdrop
  by_cases h1 : u.length + s.length ≤ p.length
  · left
    rw [List.take_append_eq_append_take, List.take_of_length_le (by omega),
      List.take_append_eq_append_take, List.take_of_length_le (by omega)] at htake
    rw [← List.append_assoc] at htake
    exact containsSub_iff.mpr ⟨u, _, htake⟩
  · by_cases h2 : p.length ≤ u.length
    · right; left
      rw [List.drop_append_eq_append_drop] at hdrop
      have hz : p.length - u.length = 0 := by omega
      rw [hz, List.drop_zero] at hdrop
      rw [← List.append_assoc] at hdrop
      exact containsSub_iff.mpr ⟨u.drop p.length, v, hdrop⟩
    · right; right
      refine ⟨p.length - u.length, by omega, by omega, ⟨u, ?_⟩, ?_⟩
      · rw [List.take_append_eq_append_take, List.take_of_length_le (by omega),
          List.take_append_eq_append_take] at htake
        have hz : p.length - u.length - s.length = 0 := by omega
        rw [hz, List.take_zero, List.append_nil] at htake
        exact htake
      · rw [List.drop_append_eq_append_drop, List.drop_eq_nil_of_le (by omega),
          List.nil_append, List.drop_append_eq_append_drop] at hdrop
        have hz : p.length - u.length - s.length = 0 := by omega
        rw [hz, List.drop_zero] at hdrop
        exact stw_iff.mpr ⟨v, hdrop⟩

/-! Unfolding equations for `replaceAll` and helpers about `joinWith`. -/

theorem replaceAll_nil (s t : CS) : replaceAll s t [] = [] := by
  rw [replaceAll]
  split
  · rfl
  · rfl

theorem replaceAll_cons_pos {s : CS} (t : CS) {c : Char} {rest : CS} (hs : s ≠ [])
    (h : stw s (c :: rest) = true) :
    replaceAll s t (c :: rest) = t ++ replaceAll s t ((c :: rest).drop s.length) := by
  rw [replaceAll]
  simp [hs, h]

theorem replaceAll_cons_neg {s : CS} (t : CS) {c : Char} {rest : CS} (hs : s ≠ [])
    (h : stw s (c :: rest) = false) :
    replaceAll s t (c :: rest) = c :: replaceAll s t rest := by
  rw [replaceAll]
  simp [hs, h]

theorem joinWith_cons (sep l : CS) {ls : List CS} (h : ls ≠ []) :
    joinWith sep (l :: ls) = l ++ sep ++ joinWith sep ls := by
  cases ls with
  | nil => exact absurd rfl h
  | cons a as => rfl

theorem joinWith_cons_chr (sep : CS) (c : Char) (k : CS) (ks : List CS) :
    joinWith sep ((c :: k) :: ks) = c :: joinWith sep (k :: ks) := by
  cases ks with
  | nil => rfl
  | cons a as => simp [joinWith]

theorem joinWith_first (sep k : CS) (ks : List CS) :
    ∃ w, joinWith sep (k :: ks) = k ++ w := by
  cases ks with
  | nil => exact ⟨[], by simp [joinWith]⟩
  | cons a as => exact ⟨sep ++ joinWith sep (a :: as), by simp [joinWith]⟩

/-- When the pattern never occurs, the substitution is the identity. -/
theorem replaceAll_of_not_contains {s : CS} (t : CS) (hs : s ≠ []) :
    ∀ x : CS, containsSub s x = false → replaceAll s t x = x := by
  intro x
  induction x with
  | nil => intro _; exact replaceAll_nil s t
  | cons c rest ih =>
    intro h
    simp only [containsSub, Bool.or_eq_false_iff] at h
    rw [replaceAll_cons_neg t hs h.1, ih h.2]

/-- Chunk decomposition: `replaceAll s t` rewrites every non-overlapping
occurrence of `s` in one pass and copies every character outside the matched
spans verbatim: the input splits into match-free chunks joined by `s`, and
the output is exactly the same chunks joined by `t`. -/
theorem replaceAll_chunks (s t : CS) (hs : s ≠ []) :
    ∀ x : CS, ∃ chunks : List CS, chunks ≠ [] ∧
      x = joinWith s chunks ∧
      replaceAll s t x = joinWith t chunks ∧
      ∀ c0 ∈ chunks, containsSub s c0 = false
  | [] =>
    ⟨[[]], by simp, by simp [joinWith], by simp [replaceAll_nil, joinWith],
      by simpa using containsSub_nil hs⟩
  | c :: rest => by
    by_cases hstw : stw s (c :: rest) = true
    · obtain ⟨cks, hne, hx, hr, hfree⟩ := replaceAll_chunks s t hs ((c :: rest).drop s.length)
      refine ⟨[] :: cks, by simp, ?_, ?_, ?_⟩
      · obtain ⟨v, hv⟩ := stw_iff.mp hstw
        have hd : (c :: rest).drop s.length = v := by rw [hv, List.drop_left]
        rw [joinWith_cons s [] hne, List.nil_append, ← hx, hd]
        exact hv
      · rw [replaceAll_cons_pos t hs hstw, joinWith_cons t [] hne, List.nil_append, hr]
      · intro c0 hc0
        rcases List.mem_cons.mp hc0 with h | h
        · subst h; exact containsSub_nil hs
        · exact hfree c0 h
    · obtain ⟨cks, hne, hx, hr, hfree⟩ := replaceAll_chunks s t hs rest
      cases cks with
      | nil => exact absurd rfl hne
      | cons k ks =>
        refine ⟨(c :: k) :: ks, by simp, ?_, ?_, ?_⟩
        · rw [joinWith_cons_chr, ← hx]
        · rw [replaceAll_cons_neg t hs (by simpa using hstw), joinWith_cons_chr, ← hr]
        · intro c0 hc0
          rcases List.mem_cons.mp hc0 with h | h
          · subst h
            simp only [containsSub, Bool.or_eq_false_iff]
            refine ⟨?_, ?_⟩
            · by_contra hcc
              have hcc' : stw s (c :: k) = true := by
                cases hb : stw s (c :: k)
                · exact absurd hb hcc
                · rfl
              obtain ⟨w, hw⟩ := joinWith_first s k ks
              have : stw s (c :: rest) = true := by
                have := stw_append (w := w) hcc'
                rw [hx, hw]
                simpa using this
              exact absurd this (by simpa using hstw)
            · have hk : containsSub s k = false := hfree k (by simp)
              cases hb : containsSub s k
              · rfl
              · exact absurd hb (by simp [hk])
          · exact hfree c0 (by simp [h])
termination_by x => x.length
decreasing_by
  · have : 0 < s.length := List.length_pos.mpr hs
    simp only [List.length_drop, List.length_cons]
    omega
  · simp

/-! Idempotence engine for fixed-string substitutions.  `idemCond s t` is a
decidable overlap-freedom condition: the replacement contains no occurrence
of the pattern, no nonempty proper pattern-prefix ends the replacement, and
no nonempty proper pattern-suffix starts (or is started by) the replacement.
Under it, the output of `replaceAll s t` never contains `s`, so a second run
is the identity. -/

theorem stw_nil_false {p : CS} (h : p ≠ []) : stw p [] = false := by
  cases p with
  | nil => exact absurd rfl h
  | cons a p => rfl

theorem stw_within {u t R : CS} (h : stw u (t ++ R) = true) (hl : u.length ≤ t.length) :
    stw u t = true := by
  obtain ⟨w, hw⟩ := stw_iff.mp h
  have ht := congrArg (List.take t.length) hw
  rw [List.take_left, List.take_append_eq_append_take, List.take_of_length_le hl] at ht
  exact stw_iff.mpr ⟨_, ht⟩

theorem stw_swallow {u t R : CS} (h : stw u (t ++ R) = true) (hl : t.length ≤ u.length) :
    stw t u = true := by
  obtain ⟨w, hw⟩ := stw_iff.mp h
  have hu := congrArg (List.take u.length) hw.symm
  rw [List.take_left, List.take_append_eq_append_take, List.take_of_length_le hl] at hu
  exact stw_iff.mpr ⟨_, hu⟩

def ewB (suf l : CS) : Bool := stw suf.reverse l.reverse

theorem ewB_iff {suf l : CS} : ewB suf l = true ↔ ∃ a, l = a ++ suf := by
  unfold ewB
  rw [stw_iff]
  constructor
  · rintro ⟨w, hw⟩
    refine ⟨w.reverse, ?_⟩
    have := congrArg List.reverse hw
    simpa using this
  · rintro ⟨a, rfl⟩
    exact ⟨a.reverse, by simp⟩

def idemCond (s t : CS) : Bool :=
  !s.isEmpty && !t.isEmpty && !containsSub s t &&
  ((List.range s.length).all fun k => (k == 0) || !(ewB (s.take k) t)) &&
  ((List.range s.length).all fun k => (k == 0) || (!(stw (s.drop k) t) && !(stw t (s.drop k))))

theorem idemCond_parts {s t : CS} (hc : idemCond s t = true) :
    s ≠ [] ∧ containsSub s t = false ∧
    (∀ k, 0 < k → k < s.length → ∀ a : CS, t ≠ a ++ s.take k) ∧
    (∀ k, 0 < k → k < s.length → stw (s.drop k) t = false ∧ stw t (s.drop k) = false) := by
  unfold idemCond at hc
  simp only [Bool.and_eq_true, Bool.not_eq_true', List.all_eq_true, List.mem_range] at hc
  obtain ⟨⟨⟨⟨hse, _⟩, hct⟩, htk⟩, hdp⟩ := hc
  refine ⟨by simpa [List.isEmpty_iff] using hse, hct, ?_, ?_⟩
  · intro k hk0 hks a ha
    have hor := htk k hks
    simp only [Bool.or_eq_true] at hor
    rcases hor with h | h
    · have : k = 0 := by simpa using h
      omega
    · exact absurd (ewB_iff.mpr ⟨a, ha⟩) (by simpa using h)
  · intro k hk0 hks
    have hor := hdp k hks
    simp only [Bool.or_eq_true] at hor
    rcases hor with h | h
    · have : k = 0 := by simpa using h
      omega
    · rw [Bool.and_eq_true] at h
      exact ⟨by simpa using h.1, by simpa using h.2⟩

/-- Pattern-suffix preservation: if a nonempty proper suffix of the pattern
does not start `y`, it does not start `replaceAll s t y` either. -/
theorem stw_drop_replaceAll {s t : CS} (hc : idemCond s t = true) :
    ∀ (y : CS) (k : Nat), 0 < k → k < s.length → stw (s.drop k) y = false →
      stw (s.drop k) (replaceAll s t y) = false
  | [], k => by
    intro hk0 hks _
    rw [replaceAll_nil]
    exact stw_nil_false (by
      intro h
      have := congrArg List.length h
      simp only [List.length_drop, List.length_nil] at this
      omega)
  | c :: rest, k => by
    intro hk0 hks hstwy
    obtain ⟨hsne, hct, htk, hdp⟩ := idemCond_parts hc
    by_cases hstw : stw s (c :: rest) = true
    · rw [replaceAll_cons_pos t hsne hstw]
      cases hb : stw (s.drop k) (t ++ replaceAll s t ((c :: rest).drop s.length))
      · rfl
      · exfalso
        by_cases hl : (s.drop k).length ≤ t.length
        · exact absurd (stw_within hb hl) (by simp [(hdp k hk0 hks).1])
        · exact absurd (stw_swallow hb (by omega)) (by simp [(hdp k hk0 hks).2])
    · rw [replaceAll_cons_neg t hsne (by simpa using hstw)]
      have hdk : s.drop k = s[k] :: s.drop (k + 1) := List.drop_eq_getElem_cons hks
      cases hb : stw (s.drop k) (c :: replaceAll s t rest)
      · rfl
      · exfalso
        rw [hdk] at hb hstwy
        simp only [stw, Bool.and_eq_true, beq_iff_eq] at hb
        obtain ⟨rfl, hb2⟩ := hb
        simp only [stw, beq_self_eq_true, Bool.true_and] at hstwy
        by_cases hk1 : k + 1 < s.length
        · have := stw_drop_replaceAll hc rest (k + 1) (by omega) hk1 hstwy
          rw [this] at hb2
          exact absurd hb2 (by simp)
        · have hnil : s.drop (k + 1) = [] := by
            apply List.drop_eq_nil_of_le
            omega
          rw [hnil] at hstwy
          simp [stw] at hstwy
termination_by y _ => y.length

/-- Under the overlap-freedom condition, the output of the substitution
contains no occurrence of the pattern. -/
theorem stw_cons_split {s : CS} {c : Char} {R : CS} (hsne : s ≠ [])
    (h : stw s (c :: R) = true) : s.take 1 = [c] ∧ stw (s.drop 1) R = true := by
  cases s with
  | nil => exact absurd rfl hsne
  | cons a s1 =>
    simp only [stw, Bool.and_eq_true, beq_iff_eq] at h
    exact ⟨by simp [h.1], h.2⟩

theorem stw_cons_build {s : CS} {c : Char} {R : CS} (hsne : s ≠ [])
    (h1 : s.take 1 = [c]) (h2 : stw (s.drop 1) R = true) : stw s (c :: R) = true := by
  cases s with
  | nil => exact absurd rfl hsne
  | cons a s1 =>
    have ha : a = c := by simpa using h1
    simp only [stw, Bool.and_eq_true, beq_iff_eq]
    exact ⟨ha, h2⟩

theorem replaceAll_no_occ {s t : CS} (hc : idemCond s t = true) :
    ∀ x : CS, containsSub s (replaceAll s t x) = false
  | [] => by
    rw [replaceAll_nil]
    exact containsSub_nil (idemCond_parts hc).1
  | c :: rest => by
    obtain ⟨hsne, hct, htk, hdp⟩ := idemCond_parts hc
    by_cases hstw : stw s (c :: rest) = true
    · rw [replaceAll_cons_pos t hsne hstw]
      cases hb : containsSub s (t ++ replaceAll s t ((c :: rest).drop s.length))
      · rfl
      · exfalso
        rcases occ_append hb with h | h | ⟨k, hk0, hks, ⟨a, ha⟩, _⟩
        · exact absurd h (by simp [hct])
        · have := replaceAll_no_occ hc ((c :: rest).drop s.length)
          exact absurd h (by simp [this])
        · exact htk k hk0 hks a ha
    · rw [replaceAll_cons_neg t hsne (by simpa using hstw)]
      cases hb : containsSub s (c :: replaceAll s t rest)
      · rfl
      · exfalso
        simp only [containsSub, Bool.or_eq_true] at hb
        rcases hb with hb1 | hb1
        · obtain ⟨ht1, hb2⟩ := stw_cons_split hsne hb1
          by_cases h1 : 1 < s.length
          · have hy : stw (s.drop 1) rest = false := by
              cases hy : stw (s.drop 1) rest
              · rfl
              · exact absurd (stw_cons_build hsne ht1 hy) (by simpa using hstw)
            have hz := stw_drop_replaceAll hc rest 1 (by omega) h1 hy
            rw [hz] at hb2
            exact absurd hb2 (by simp)
          · have hnil : s.drop 1 = [] := by
              apply List.drop_eq_nil_of_le
              have := List.length_pos.mpr hsne
              omega
            have : stw s (c :: rest) = true :=
              stw_cons_build hsne ht1 (by rw [hnil]; rfl)
            exact absurd this (by simpa using hstw)
        · have := replaceAll_no_occ hc rest
          exact absurd hb1 (by simp [this])
termination_by x => x.length
decreasing_by
  · have : 0 < s.length := List.length_pos.mpr hsne
    simp only [List.length_drop, List.length_cons]
    omega
  · simp

/-- Idempotence of a fixed-string substitution under the overlap-freedom
side condition. -/
theorem replaceAll_idem {s t : CS} (hc : idemCond s t = true) (x : CS) :
    replaceAll s t (replaceAll s t x) = replaceAll s t x :=
  replaceAll_of_not_contains t (idemCond_parts hc).1 _ (replaceAll_no_occ hc x)

/-! Line-structure lemmas: `splitNl` and `joinNl` are mutually inverse on
newline-free line lists, and a newline-free pattern occurs in the joined text
iff it occurs in one of the lines. -/

theorem stw_refl (p : CS) : stw p p = true := by
  induction p with
  | nil => rfl
  | cons a p ih => simp [stw, ih]

theorem mem_joinWith_contains {p l : CS} (sep : CS) {ls : List CS} (hmem : l ∈ ls)
    (h : containsSub p l = true) : containsSub p (joinWith sep ls) = true := by
  induction ls with
  | nil => exact absurd hmem (by simp)
  | cons a as ih =>
    cases as with
    | nil =>
      have : l = a := by simpa using hmem
      subst this
      simpa [joinWith] using h
    | cons b bs =>
      rw [joinWith_cons sep a (by simp)]
      rcases List.mem_cons.mp hmem with rfl | hmem2
      · rw [List.append_assoc]
        exact containsSub_append_right _ h
      · exact containsSub_append_left _ (ih hmem2)

theorem splitNl_ne_nil : ∀ x : CS, splitNl x ≠ []
  | [] => by simp [splitNl]
  | c :: rest => by
    simp only [splitNl]
    split
    · simp
    · split
      · simp
      · simp

theorem splitNl_nlFree : ∀ (x : CS), ∀ l ∈ splitNl x, ∀ ch ∈ l, ch ≠ '\n'
  | [] => by
    intro l hl ch hch
    simp only [splitNl, List.mem_singleton] at hl
    subst hl
    simp at hch
  | c :: rest => by
    intro l hl ch hch
    simp only [splitNl] at hl
    by_cases hc : c = '\n'
    · rw [if_pos hc] at hl
      rcases List.mem_cons.mp hl with rfl | hl2
      · simp at hch
      · exact splitNl_nlFree rest l hl2 ch hch
    · rw [if_neg hc] at hl
      rcases hsp : splitNl rest with _ | ⟨l0, ls⟩
      · exact absurd hsp (splitNl_ne_nil rest)
      · rw [hsp] at hl
        rcases List.mem_cons.mp hl with rfl | hl2
        · rcases List.mem_cons.mp hch with rfl | hch2
          · exact hc
          · exact splitNl_nlFree rest l0 (by rw [hsp]; simp) ch hch2
        · exact splitNl_nlFree rest l (by rw [hsp]; simp [hl2]) ch hch

theorem joinNl_splitNl : ∀ x : CS, joinNl (splitNl x) = x
  | [] => by simp [splitNl, joinNl, joinWith]
  | c :: rest => by
    simp only [splitNl]
    by_cases hc : c = '\n'
    · rw [if_pos hc]
      unfold joinNl
      rw [joinWith_cons _ _ (splitNl_ne_nil rest), List.nil_append, hc]
      have := joinNl_splitNl rest
      unfold joinNl at this
      rw [this]
      rfl
    · rw [if_neg hc]
      rcases hsp : splitNl rest with _ | ⟨l0, ls⟩
      · exact absurd hsp (splitNl_ne_nil rest)
      · unfold joinNl
        rw [joinWith_cons_chr]
        have := joinNl_splitNl rest
        unfold joinNl at this
        rw [hsp] at this
        rw [this]

theorem splitNl_nlFree_single : ∀ (l : CS), (∀ ch ∈ l, ch ≠ '\n') → splitNl l = [l]
  | [] => by intro _; rfl
  | c :: rest => by
    intro h
    have hc : c ≠ '\n' := h c (by simp)
    simp only [splitNl, if_neg hc]
    rw [splitNl_nlFree_single rest (fun ch hch => h ch (by simp [hch]))]

theorem splitNl_append_nl {l : CS} (z : CS) (h : ∀ ch ∈ l, ch ≠ '\n') :
    splitNl (l ++ '\n' :: z) = l :: splitNl z := by
  induction l with
  | nil => simp [splitNl]
  | cons c l ih =>
    have hc : c ≠ '\n' := h c (by simp)
    simp only [List.cons_append, splitNl, if_neg hc]
    rw [show l.append ('\n' :: z) = l ++ '\n' :: z from rfl]
    rw [ih (fun ch hch => h ch (by simp [hch]))]

theorem splitNl_joinNl : ∀ (ls : List CS), ls ≠ [] →
    (∀ l ∈ ls, ∀ ch ∈ l, ch ≠ '\n') → splitNl (joinNl ls) = ls
  | [], h, _ => absurd rfl h
  | [l], _, hf => by
    simp only [joinNl, joinWith]
    exact splitNl_nlFree_single l (hf l (by simp))
  | l :: l2 :: ls, _, hf => by
    unfold joinNl
    rw [joinWith_cons _ _ (by simp : l2 :: ls ≠ [])]
    rw [List.append_assoc, List.singleton_append]
    rw [splitNl_append_nl _ (hf l (by simp))]
    have := splitNl_joinNl (l2 :: ls) (by simp)
      (fun l3 h3 => hf l3 (by simp [List.mem_cons.mp h3]))
    unfold joinNl at this
    rw [this]

theorem nlFree_split {p : CS} (hp : p ≠ []) (hnl : ∀ ch ∈ p, ch ≠ '\n') :
    ∀ (ls : List CS), containsSub p (joinNl ls) = true → ∃ l ∈ ls, containsSub p l = true
  | [] => by
    intro h
    rw [show joinNl [] = [] from rfl] at h
    exact absurd h (by simp [containsSub_nil hp])
  | [l] => by
    intro h
    exact ⟨l, by simp, by simpa [joinNl, joinWith] using h⟩
  | l :: l2 :: ls => by
    intro h
    unfold joinNl at h
    rw [joinWith_cons _ _ (by simp : l2 :: ls ≠ []), List.append_assoc,
      List.singleton_append] at h
    rcases occ_append h with h1 | h1 | ⟨k, hk0, hks, _, hdk⟩
    · exact ⟨l, by simp, h1⟩
    · simp only [containsSub, Bool.or_eq_true] at h1
      rcases h1 with h1 | h1
      · exfalso
        obtain ⟨ht1, _⟩ := stw_cons_split hp h1
        cases p with
        | nil => exact hp rfl
        | cons p0 pt =>
          have hp0 : p0 = '\n' := by simpa using ht1
          exact hnl p0 (by simp) hp0
      · obtain ⟨l3, hl3, hc3⟩ := nlFree_split hp hnl (l2 :: ls) (by simpa [joinNl] using h1)
        exact ⟨l3, by simp [List.mem_cons.mp hl3], hc3⟩
    · exfalso
      have hdrop : p.drop k = p[k] :: p.drop (k + 1) := List.drop_eq_getElem_cons hks
      rw [hdrop] at hdk
      simp only [stw, Bool.and_eq_true, beq_iff_eq] at hdk
      exact hnl p[k] (List.getElem_mem hks) hdk.1

/-! Unfolding lemmas for the two import-insertion transforms, and their
idempotence. -/

theorem fixBytes_nouse {c : CS} (h : containsSub bytesUsageMarker c = false) :
    fixBytesContent c = (false, c) := by
  simp [fixBytesContent, h]

theorem fixBytes_has {c : CS} (h : containsSub bytesImportCheck c = true) :
    fixBytesContent c = (false, c) := by
  simp [fixBytesContent, h]

theorem fixBytes_scan {c : CS} {i : Nat} (hu : containsSub bytesUsageMarker c = true)
    (hh : containsSub bytesImportCheck c = false)
    (hs : scanImportIdx 0 none (splitNl c) = some i) :
    fixBytesContent c = (true, joinNl (insertAt (i + 1) bytesImportStmt (splitNl c))) := by
  simp [fixBytesContent, hu, hh, hs]

theorem fixBytes_pkg {c : CS} {p : Nat} (hu : containsSub bytesUsageMarker c = true)
    (hh : containsSub bytesImportCheck c = false)
    (hs : scanImportIdx 0 none (splitNl c) = none)
    (hp : findPkgIdx 0 (splitNl c) = some p) :
    fixBytesContent c = (true, joinNl (insertAt (p + 2) bytesImportStmt (splitNl c))) := by
  simp [fixBytesContent, hu, hh, hs, hp]

theorem fixBytes_noanchor {c : CS} (hu : containsSub bytesUsageMarker c = true)
    (hh : containsSub bytesImportCheck c = false)
    (hs : scanImportIdx 0 none (splitNl c) = none)
    (hp : findPkgIdx 0 (splitNl c) = none) :
    fixBytesContent c = (false, c) := by
  simp [fixBytesContent, hu, hh, hs, hp]

theorem bytesCheck_in_insert (n : Nat) (ls : List CS) :
    containsSub bytesImportCheck (joinNl (insertAt n bytesImportStmt ls)) = true := by
  apply containsSub_mono_pat (q := bytesImportCheck) (p := bytesImportStmt) (by decide)
  exact mem_joinWith_contains _ (by simp [insertAt]) (containsSub_of_stw (stw_refl _))

theorem fixBytes_idem (c : CS) :
    (fixBytesContent (fixBytesContent c).2).2 = (fixBytesContent c).2 := by
  by_cases hu : containsSub bytesUsageMarker c = true
  · by_cases hh : containsSub bytesImportCheck c = true
    · simp [fixBytes_has hh]
    · have hh2 : containsSub bytesImportCheck c = false := by simpa using hh
      cases hscan : scanImportIdx 0 none (splitNl c) with
      | some i =>
        rw [fixBytes_scan hu hh2 hscan]
        simp only []
        rw [fixBytes_has (bytesCheck_in_insert _ _)]
      | none =>
        cases hpkg : findPkgIdx 0 (splitNl c) with
        | some p =>
          rw [fixBytes_pkg hu hh2 hscan hpkg]
          simp only []
          rw [fixBytes_has (bytesCheck_in_insert _ _)]
        | none => simp [fixBytes_noanchor hu hh2 hscan hpkg]
  · simp [fixBytes_nouse (by simpa using hu)]

theorem tiToAdd_mem {c : CS} {l : CS} (h : l ∈ tiToAdd c) :
    l = outAdapterImportStmt ∨ l = inAdapterImportStmt := by
  unfold tiToAdd at h
  rcases List.mem_append.mp h with h1 | h1 <;> split at h1 <;> simp at h1 <;> simp [h1]

theorem tiToAdd_out_empty {c : CS} (h : containsSub outAdapterMarker c = false) {l : CS}
    (hm : l ∈ tiToAdd c) : l = inAdapterImportStmt := by
  have he : tiToAdd c = (if containsSub inAdapterMarker c &&
      !containsSub inAdapterImportCheck c then [inAdapterImportStmt] else []) := by
    unfold tiToAdd
    rw [h]
    simp
  rw [he] at hm
  split at hm
  · simpa using hm
  · simp at hm

theorem tiToAdd_in_empty {c : CS} (h : containsSub inAdapterMarker c = false) {l : CS}
    (hm : l ∈ tiToAdd c) : l = outAdapterImportStmt := by
  have he : tiToAdd c = (if containsSub outAdapterMarker c &&
      !containsSub outAdapterImportCheck c then [outAdapterImportStmt] else []) := by
    unfold tiToAdd
    rw [h]
    simp
  rw [he] at hm
  split at hm
  · simpa using hm
  · simp at hm

theorem fixTI_empty {c : CS} (h : tiToAdd c = []) :
    fixTestImportsContent c = (false, c) := by
  unfold fixTestImportsContent
  split
  · rfl
  · rw [if_pos (by simp [h])]

theorem fixTI_noop {c : CS}
    (hOut : containsSub outAdapterMarker c = false ∨
      containsSub outAdapterImportCheck c = true)
    (hIn : containsSub inAdapterMarker c = false ∨
      containsSub inAdapterImportCheck c = true) :
    fixTestImportsContent c = (false, c) := by
  apply fixTI_empty
  unfold tiToAdd
  have h1 : (containsSub outAdapterMarker c && !containsSub outAdapterImportCheck c) = false := by
    rcases hOut with h | h <;> simp [h]
  have h2 : (containsSub inAdapterMarker c && !containsSub inAdapterImportCheck c) = false := by
    rcases hIn with h | h <;> simp [h]
  rw [h1, h2]
  simp

theorem fixTI_write {c : CS} (h : tiToAdd c ≠ []) :
    fixTestImportsContent c = (true, joinNl ((splitNl c).take (tiBase c) ++ tiToAdd c ++
      (splitNl c).drop (tiBase c))) := by
  unfold fixTestImportsContent
  split
  next hcond =>
    exfalso
    simp only [Bool.and_eq_true, Bool.not_eq_true'] at hcond
    apply h
    unfold tiToAdd
    rw [hcond.1, hcond.2]
    simp
  next =>
    rw [if_neg (by simpa [List.isEmpty_iff] using h)]

theorem mem_outer {l : CS} {ls : List CS} (b : Nat) (mid : List CS) (h : l ∈ ls) :
    l ∈ ls.take b ++ mid ++ ls.drop b := by
  have h2 : l ∈ ls.take b ++ ls.drop b := by
    rw [List.take_append_drop]
    exact h
  rcases List.mem_append.mp h2 with h3 | h3
  · exact List.mem_append.mpr (Or.inl (List.mem_append.mpr (Or.inl h3)))
  · exact List.mem_append.mpr (Or.inr h3)

theorem contains_of_line {p c : CS} {l : CS} (hl : l ∈ splitNl c)
    (h : containsSub p l = true) : containsSub p c = true := by
  rw [← joinNl_splitNl c]
  exact mem_joinWith_contains _ hl h

theorem line_of_contains {p c : CS} (hp : p ≠ []) (hnl : ∀ ch ∈ p, ch ≠ '\n')
    (h : containsSub p c = true) : ∃ l ∈ splitNl c, containsSub p l = true := by
  apply nlFree_split hp hnl
  rw [joinNl_splitNl]
  exact h

theorem fixTI_idem (c : CS) :
    (fixTestImportsContent (fixTestImportsContent c).2).2 = (fixTestImportsContent c).2 := by
  by_cases h : tiToAdd c = []
  · simp [fixTI_empty h]
  · rw [fixTI_write h]
    simp only []
    set c2 := joinNl ((splitNl c).take (tiBase c) ++ tiToAdd c ++
      (splitNl c).drop (tiBase c)) with hc2
    have hlines : splitNl c2 = (splitNl c).take (tiBase c) ++ tiToAdd c ++
        (splitNl c).drop (tiBase c) := by
      rw [hc2]
      apply splitNl_joinNl
      · intro hcon
        rw [List.append_eq_nil, List.append_eq_nil] at hcon
        exact h hcon.1.2
      · intro l hl ch hch
        rcases List.mem_append.mp hl with h1 | h1
        · rcases List.mem_append.mp h1 with h2 | h2
          · exact splitNl_nlFree c l (List.mem_of_mem_take h2) ch hch
          · rcases tiToAdd_mem h2 with rfl | rfl
            · exact (by decide : ∀ ch2 ∈ outAdapterImportStmt, ch2 ≠ '\n') ch hch
            · exact (by decide : ∀ ch2 ∈ inAdapterImportStmt, ch2 ≠ '\n') ch hch
        · exact splitNl_nlFree c l (List.mem_of_mem_drop h1) ch hch
    have hOut2 : containsSub outAdapterMarker c2 = false ∨
        containsSub outAdapterImportCheck c2 = true := by
      by_cases hflag : (containsSub outAdapterMarker c &&
          !containsSub outAdapterImportCheck c) = true
      · right
        apply containsSub_mono_pat (q := outAdapterImportCheck)
          (p := outAdapterImportStmt) (by decide)
        apply mem_joinWith_contains _ ?_ (containsSub_of_stw (stw_refl _))
        apply List.mem_append.mpr
        left
        apply List.mem_append.mpr
        right
        unfold tiToAdd
        rw [if_pos hflag]
        simp
      · simp only [Bool.and_eq_true, Bool.not_eq_true'] at hflag
        by_cases huo : containsSub outAdapterMarker c = true
        · right
          have hho : containsSub outAdapterImportCheck c = true := by
            by_contra hcon
            exact hflag ⟨huo, by simpa using hcon⟩
          obtain ⟨l, hl, hcl⟩ := line_of_contains (p := outAdapterImportCheck) (c := c)
            (by decide) (by decide) hho
          rw [hc2]
          exact mem_joinWith_contains _ (mem_outer _ _ hl) hcl
        · left
          cases hb : containsSub outAdapterMarker c2
          · rfl
          · exfalso
            obtain ⟨l, hl, hcl⟩ := line_of_contains (p := outAdapterMarker) (c := c2)
              (by decide) (by decide) hb
            rw [hlines] at hl
            rcases List.mem_append.mp hl with h1 | h1
            · rcases List.mem_append.mp h1 with h2 | h2
              · exact huo (contains_of_line (List.mem_of_mem_take h2) hcl)
              · have hle := tiToAdd_out_empty (by simpa using huo) h2
                subst hle
                exact absurd hcl (by decide)
            · exact huo (contains_of_line (List.mem_of_mem_drop h1) hcl)
    have hIn2 : containsSub inAdapterMarker c2 = false ∨
        containsSub inAdapterImportCheck c2 = true := by
      by_cases hflag : (containsSub inAdapterMarker c &&
          !containsSub inAdapterImportCheck c) = true
      · right
        apply containsSub_mono_pat (q := inAdapterImportCheck)
          (p := inAdapterImportStmt) (by decide)
        apply mem_joinWith_contains _ ?_ (containsSub_of_stw (stw_refl _))
        apply List.mem_append.mpr
        left
        apply List.mem_append.mpr
        right
        unfold tiToAdd
        rw [if_pos hflag]
        simp
      · simp only [Bool.and_eq_true, Bool.not_eq_true'] at hflag
        by_cases hui : containsSub inAdapterMarker c = true
        · right
          have hhi : containsSub inAdapterImportCheck c = true := by
            by_contra hcon
            exact hflag ⟨hui, by simpa using hcon⟩
          obtain ⟨l, hl, hcl⟩ := line_of_contains (p := inAdapterImportCheck) (c := c)
            (by decide) (by decide) hhi
          rw [hc2]
          exact mem_joinWith_contains _ (mem_outer _ _ hl) hcl
        · left
          cases hb : containsSub inAdapterMarker c2
          · rfl
          · exfalso
            obtain ⟨l, hl, hcl⟩ := line_of_contains (p := inAdapterMarker) (c := c2)
              (by decide) (by decide) hb
            rw [hlines] at hl
            rcases List.mem_append.mp hl with h1 | h1
            · rcases List.mem_append.mp h1 with h2 | h2
              · exact hui (contains_of_line (List.mem_of_mem_take h2) hcl)
              · have hle := tiToAdd_in_empty (by simpa using hui) h2
                subst hle
                exact absurd hcl (by decide)
            · exact hui (contains_of_line (List.mem_of_mem_drop h1) hcl)
    rw [fixTI_noop hOut2 hIn2]

unseal subArg in
/-- C1 counterexample: the two `computeHash` capture-group substitutions of
`fix_chronicle_imports.py` (the plain variant `computeHash\(Bytes<ByteBuffer>
([^)]+)\)` and the `final` variant) are not idempotent: when the captured
argument itself contains a `computeHash(...Bytes<ByteBuffer> ...` call, a
second run over the output of the first run changes the content again. -/
theorem c1_counterexample :
    subArg chOld chNew (subArg chOld chNew c1Cex) ≠ subArg chOld chNew c1Cex ∧
    subArg chfOld chfNew (subArg chfOld chfNew c1fCex) ≠ subArg chfOld chfNew c1fCex := by
  exact ⟨by decide, by decide⟩

/-! Counting lemmas for the import-dedup property. -/

theorem splitNl_insert_lines {c : CS} {k : Nat} {stmt : CS}
    (hnl : ∀ ch ∈ stmt, ch ≠ '\n') :
    splitNl (joinNl (insertAt k stmt (splitNl c))) = insertAt k stmt (splitNl c) := by
  apply splitNl_joinNl
  · simp [insertAt]
  · intro l hl ch hch
    simp only [insertAt] at hl
    rcases List.mem_append.mp hl with h1 | h1
    · rcases List.mem_append.mp h1 with h2 | h2
      · exact splitNl_nlFree c l (List.mem_of_mem_take h2) ch hch
      · have : l = stmt := by simpa using h2
        subst this
        exact hnl ch hch
    · exact splitNl_nlFree c l (List.mem_of_mem_drop h1) ch hch

theorem count_insertAt (k : Nat) (a : CS) (ls : List CS) :
    (insertAt k a ls).count a = ls.count a + 1 := by
  unfold insertAt
  have h := congrArg (List.count a) (List.take_append_drop k ls)
  rw [List.count_append] at h
  simp only [List.count_append]
  rw [show List.count a [a] = 1 by simp]
  omega

theorem count_lines_zero {c stmt check : CS} (hpre : stw check stmt = true)
    (hh : containsSub check c = false) : (splitNl c).count stmt = 0 := by
  rw [List.count_eq_zero]
  intro hmem
  have h1 : containsSub stmt c = true :=
    contains_of_line hmem (containsSub_of_stw (stw_refl stmt))
  have h2 : containsSub check c = true := containsSub_mono_pat hpre h1
  rw [h2] at hh
  exact absurd hh (by simp)

theorem fixTI_write_lines {c : CS} (h : tiToAdd c ≠ []) :
    splitNl (fixTestImportsContent c).2 =
      (splitNl c).take (tiBase c) ++ tiToAdd c ++ (splitNl c).drop (tiBase c) := by
  rw [fixTI_write h]
  simp only []
  apply splitNl_joinNl
  · intro hcon
    rw [List.append_eq_nil, List.append_eq_nil] at hcon
    exact h hcon.1.2
  · intro l hl ch hch
    rcases List.mem_append.mp hl with h1 | h1
    · rcases List.mem_append.mp h1 with h2 | h2
      · exact splitNl_nlFree c l (List.mem_of_mem_take h2) ch hch
      · rcases tiToAdd_mem h2 with rfl | rfl
        · exact (by decide : ∀ ch2 ∈ outAdapterImportStmt, ch2 ≠ '\n') ch hch
        · exact (by decide : ∀ ch2 ∈ inAdapterImportStmt, ch2 ≠ '\n') ch hch
    · exact splitNl_nlFree c l (List.mem_of_mem_drop h1) ch hch

theorem count_toAdd_out (c : CS) :
    (tiToAdd c).count outAdapterImportStmt =
      (if containsSub outAdapterMarker c && !containsSub outAdapterImportCheck c
        then 1 else 0) := by
  unfold tiToAdd
  split <;> split <;>
    simp [List.count_append, List.count_singleton, List.count_nil,
      List.count_cons, (by decide : ¬(outAdapterImportStmt = inAdapterImportStmt))]

theorem count_toAdd_in (c : CS) :
    (tiToAdd c).count inAdapterImportStmt =
      (if containsSub inAdapterMarker c && !containsSub inAdapterImportCheck c
        then 1 else 0) := by
  unfold tiToAdd
  split <;> split <;>
    simp [List.count_append, List.count_singleton, List.count_nil,
      List.count_cons, (by decide : ¬(inAdapterImportStmt = outAdapterImportStmt))]

theorem count_take_add_drop (a : CS) (k : Nat) (ls : List CS) :
    (ls.take k).count a + (ls.drop k).count a = ls.count a := by
  have h := congrArg (List.count a) (List.take_append_drop k ls)
  rw [List.count_append] at h
  exact h

/-- C2 (amended): the two import-insertion transforms never produce a second
copy of an import line (the count of each inserted import statement among the
output lines is at most the maximum of its input count and one); as the
counterexample shows, the Chronicle import replacement is excluded since it
can rewrite two distinct Chronicle imports to the same line. -/
theorem c2_amended :
    (∀ c : CS, (splitNl (fixBytesContent c).2).count bytesImportStmt ≤
      max ((splitNl c).count bytesImportStmt) 1) ∧
    (∀ c : CS, (splitNl (fixTestImportsContent c).2).count outAdapterImportStmt ≤
      max ((splitNl c).count outAdapterImportStmt) 1) ∧
    (∀ c : CS, (splitNl (fixTestImportsContent c).2).count inAdapterImportStmt ≤
      max ((splitNl c).count inAdapterImportStmt) 1) := by
  refine ⟨?_, ?_, ?_⟩
  · intro c
    by_cases hu : containsSub bytesUsageMarker c = true
    · by_cases hh : containsSub bytesImportCheck c = true
      · rw [fixBytes_has hh]
        exact Nat.le_max_left _ _
      · have hh2 : containsSub bytesImportCheck c = false := by simpa using hh
        have hz : (splitNl c).count bytesImportStmt = 0 :=
          count_lines_zero (by decide) hh2
        cases hscan : scanImportIdx 0 none (splitNl c) with
        | some i =>
          rw [fixBytes_scan hu hh2 hscan]
          simp only []
          rw [splitNl_insert_lines (by decide), count_insertAt, hz]
          simp
        | none =>
          cases hpkg : findPkgIdx 0 (splitNl c) with
          | some p =>
            rw [fixBytes_pkg hu hh2 hscan hpkg]
            simp only []
            rw [splitNl_insert_lines (by decide), count_insertAt, hz]
            simp
          | none =>
            rw [fixBytes_noanchor hu hh2 hscan hpkg]
            exact Nat.le_max_left _ _
    · rw [fixBytes_nouse (by simpa using hu)]
      exact Nat.le_max_left _ _
  · intro c
    by_cases h : tiToAdd c = []
    · rw [fixTI_empty h]
      exact Nat.le_max_left _ _
    · rw [fixTI_write_lines h]
      rw [List.count_append, List.count_append, count_toAdd_out]
      by_cases hflag : (containsSub outAdapterMarker c &&
          !containsSub outAdapterImportCheck c) = true
      · have hh2 : containsSub outAdapterImportCheck c = false := by
          have := (Bool.and_eq_true _ _ ▸ hflag).2
          simpa using this
        have hz : (splitNl c).count outAdapterImportStmt = 0 :=
          count_lines_zero (by decide) hh2
        have hsplit := count_take_add_drop outAdapterImportStmt (tiBase c) (splitNl c)
        rw [if_pos hflag]
        omega
      · have hflag2 : (containsSub outAdapterMarker c &&
            !containsSub outAdapterImportCheck c) = false := by simpa using hflag
        have hsplit := count_take_add_drop outAdapterImportStmt (tiBase c) (splitNl c)
        rw [if_neg (by simp [hflag2])]
        have := Nat.le_max_left ((splitNl c).count outAdapterImportStmt) 1
        omega
  · intro c
    by_cases h : tiToAdd c = []
    · rw [fixTI_empty h]
      exact Nat.le_max_left _ _
    · rw [fixTI_write_lines h]
      rw [List.count_append, List.count_append, count_toAdd_in]
      by_cases hflag : (containsSub inAdapterMarker c &&
          !containsSub inAdapterImportCheck c) = true
      · have hh2 : containsSub inAdapterImportCheck c = false := by
          have := (Bool.and_eq_true _ _ ▸ hflag).2
          simpa using this
        have hz : (splitNl c).count inAdapterImportStmt = 0 :=
          count_lines_zero (by decide) hh2
        have hsplit := count_take_add_drop inAdapterImportStmt (tiBase c) (splitNl c)
        rw [if_pos hflag]
        omega
      · have hflag2 : (containsSub inAdapterMarker c &&
            !containsSub inAdapterImportCheck c) = false := by simpa using hflag
        have hsplit := count_take_add_drop inAdapterImportStmt (tiBase c) (splitNl c)
        rw [if_neg (by simp [hflag2])]
        have := Nat.le_max_left ((splitNl c).count inAdapterImportStmt) 1
        omega

/-! Branch lemmas used by the anchor-handling and error-handling claims. -/

theorem scan_acc_of_no_imports : ∀ (ls : List CS), (∀ l ∈ ls, stw impMark l = false) →
    ∀ (i : Nat) (acc : Option Nat), scanImportIdx i acc ls = acc
  | [], _, _, _ => rfl
  | l :: ls, h, i, acc => by
    have hl : stw impMark l = false := h l (by simp)
    simp only [scanImportIdx]
    rw [if_neg (by simp [hl])]
    split
    · rfl
    · exact scan_acc_of_no_imports ls (fun l2 h2 => h l2 (by simp [h2])) (i + 1) acc

theorem findPkg_none_of : ∀ (ls : List CS), (∀ l ∈ ls, stw pkgMark l = false) →
    ∀ i : Nat, findPkgIdx i ls = none
  | [], _, _ => rfl
  | l :: ls, h, i => by
    have hl : stw pkgMark l = false := h l (by simp)
    simp only [findPkgIdx, hl]
    split
    · simp_all
    · exact findPkg_none_of ls (fun l2 h2 => h l2 (by simp [h2])) (i + 1)

/-- C4 (amended): when no line starts with `import ` and no line starts with
`package `, `fix_bytes_imports.py` performs no insertion and leaves the
content unchanged, but `fix_test_imports.py` does not skip: whenever it
reports a change it has inserted its pending import statements at the very
top of the file, before the first line. -/
theorem c4_amended (c : CS)
    (h1 : ∀ l ∈ splitNl c, stw impMark l = false)
    (h2 : ∀ l ∈ splitNl c, stw pkgMark l = false) :
    fixBytesContent c = (false, c) ∧
    ((fixTestImportsContent c).1 = true →
      splitNl (fixTestImportsContent c).2 = tiToAdd c ++ splitNl c) := by
  have hscan : scanImportIdx 0 none (splitNl c) = none :=
    scan_acc_of_no_imports (splitNl c) h1 0 none
  have hpkg : findPkgIdx 0 (splitNl c) = none := findPkg_none_of (splitNl c) h2 0
  constructor
  · by_cases hu : containsSub bytesUsageMarker c = true
    · by_cases hh : containsSub bytesImportCheck c = true
      · exact fixBytes_has hh
      · exact fixBytes_noanchor hu (by simpa using hh) hscan hpkg
    · exact fixBytes_nouse (by simpa using hu)
  · intro hch
    by_cases h : tiToAdd c = []
    · rw [fixTI_empty h] at hch
      exact absurd hch (by simp)
    · have hbase : tiBase c = 0 := by
        unfold tiBase
        rw [hscan, hpkg]
      rw [fixTI_write_lines h, hbase]
      simp

/-- C4 witness: the amended claim applied to content with a usage of the out
adapter and neither an import line nor a package line. -/
theorem c4_witness :
    fixBytesContent c4Cex = (false, c4Cex) ∧
    ((fixTestImportsContent c4Cex).1 = true →
      splitNl (fixTestImportsContent c4Cex).2 = tiToAdd c4Cex ++ splitNl c4Cex) :=
  c4_amended c4Cex (by decide) (by decide)

theorem stmt_in_insert (n : Nat) (stmt : CS) (ls : List CS) :
    containsSub stmt (joinNl (insertAt n stmt ls)) = true :=
  mem_joinWith_contains _ (by simp [insertAt]) (containsSub_of_stw (stw_refl _))

/-- C8 (amended): the resolver of `fix_bytes_imports.py` is a no-op when the
usage marker is absent; its existence check matches the substring
`import io.sirix.node.Bytes` without the trailing semicolon, and it is a
no-op whenever that substring occurs (even though the exact statement
`import io.sirix.node.Bytes;` may be absent, as the counterexample shows);
when the marker is present, the check substring is absent and an anchor
exists, the import statement is inserted into the written-back content. -/
theorem c8_amended (c : CS) :
    (containsSub bytesUsageMarker c = false → fixBytesContent c = (false, c)) ∧
    (containsSub bytesImportCheck c = true → fixBytesContent c = (false, c)) ∧
    (containsSub bytesUsageMarker c = true →
      containsSub bytesImportCheck c = false →
      (scanImportIdx 0 none (splitNl c) ≠ none ∨ findPkgIdx 0 (splitNl c) ≠ none) →
      (fixBytesContent c).1 = true ∧
      containsSub bytesImportStmt (fixBytesContent c).2 = true) := by
  refine ⟨fixBytes_nouse, fixBytes_has, ?_⟩
  intro hu hh hanchor
  cases hscan : scanImportIdx 0 none (splitNl c) with
  | some i =>
    rw [fixBytes_scan hu hh hscan]
    exact ⟨rfl, stmt_in_insert _ _ _⟩
  | none =>
    cases hpkg : findPkgIdx 0 (splitNl c) with
    | some p =>
      rw [fixBytes_pkg hu hh hscan hpkg]
      exact ⟨rfl, stmt_in_insert _ _ _⟩
    | none =>
      rcases hanchor with ha | ha
      · exact absurd hscan ha
      · exact absurd hpkg ha

/-- C8 witness: the amended claim applied to content with the usage marker, no
existing-import substring, and a package-line anchor. -/
theorem c8_witness :
    (fixBytesContent c3Cex).1 = true ∧
    containsSub bytesImportStmt (fixBytesContent c3Cex).2 = true :=
  (c8_amended c3Cex).2.2 (by decide) (by decide) (Or.inr (by decide))

/-- C7 (amended): the guarded runners (modelled by `runCaughtBatch`, used by
the rewind, bytes-import, chronicle and adapter scripts, which wrap the
per-file body in try/except) decompose over the file list, and a file whose
read raises contributes nothing and does not stop the batch; the unguarded
`fix_test_imports.py` runner aborts at the first per-file failure, losing the
rest of the batch and the summary count. -/
theorem c7_amended :
    (∀ (fix : CS → Bool × CS) (acc : Nat) (u v : List SimFile),
      runCaughtBatch fix acc (u ++ v) = runCaughtBatch fix (runCaughtBatch fix acc u) v) ∧
    (∀ (fix : CS → Bool × CS) (acc : Nat) (f : SimFile) (fs : List SimFile),
      f.readResult = none → runCaughtBatch fix acc (f :: fs) = runCaughtBatch fix acc fs) ∧
    (∀ (acc : Nat) (f : SimFile) (fs : List SimFile), f.readResult = none →
      runTestImportsBatch acc (f :: fs) = Except.error f.fid) := by
  refine ⟨?_, ?_, ?_⟩
  · intro fix acc u v
    induction u generalizing acc with
    | nil => rfl
    | cons f fs ih => simp only [List.cons_append, runCaughtBatch, List.append_eq, ih]
  · intro fix acc f fs hf
    simp [runCaughtBatch, processCaught, hf]
  · intro acc f fs hf
    simp [runTestImportsBatch, processTestImports, hf]

/-- C7 witness: the amended claim applied to a concrete three-file batch whose
middle file fails to read. -/
theorem c7_witness :
    runCaughtBatch fixBytesContent 0
        ([⟨1, some c7Content, true⟩] ++ ⟨2, none, true⟩ :: [⟨3, some c7Content, true⟩]) =
      runCaughtBatch fixBytesContent
        (runCaughtBatch fixBytesContent 0 [⟨1, some c7Content, true⟩])
        (⟨2, none, true⟩ :: [⟨3, some c7Content, true⟩]) ∧
    runCaughtBatch fixBytesContent 0 (⟨2, none, true⟩ :: [⟨3, some c7Content, true⟩]) =
      runCaughtBatch fixBytesContent 0 [⟨3, some c7Content, true⟩] ∧
    runTestImportsBatch 0 (⟨2, none, true⟩ :: [⟨3, some c7Content, true⟩]) =
      Except.error 2 :=
  ⟨c7_amended.1 fixBytesContent 0 [⟨1, some c7Content, true⟩] _,
   c7_amended.2.1 fixBytesContent 0 ⟨2, none, true⟩ _ rfl,
   c7_amended.2.2 0 ⟨2, none, true⟩ _ rfl⟩

/-! Length lemmas showing a firing substitution or insertion changes the
content. -/

theorem replaceAll_ge {s t : CS} (hle : s.length ≤ t.length) :
    ∀ x : CS, x.length ≤ (replaceAll s t x).length
  | [] => by rw [replaceAll_nil]
  | c :: rest => by
    by_cases hs : s = []
    · rw [replaceAll, dif_pos hs]
    · by_cases hstw : stw s (c :: rest) = true
      · rw [replaceAll_cons_pos t hs hstw]
        have h1 := replaceAll_ge hle ((c :: rest).drop s.length)
        have h2 := stw_le hstw
        simp only [List.length_append, List.length_drop, List.length_cons] at h1 h2 ⊢
        omega
      · rw [replaceAll_cons_neg t hs (by simpa using hstw)]
        have h1 := replaceAll_ge hle rest
        simp only [List.length_cons]
        omega
termination_by x => x.length
decreasing_by
  · have : 0 < s.length := List.length_pos.mpr hs
    simp only [List.length_drop, List.length_cons]
    omega
  · simp

theorem replaceAll_gt {s t : CS} (hs : s ≠ []) (hlt : s.length < t.length) :
    ∀ x : CS, containsSub s x = true → x.length < (replaceAll s t x).length
  | [] => by
    intro h
    rw [containsSub_nil hs] at h
    exact absurd h (by simp)
  | c :: rest => by
    intro hcon
    by_cases hstw : stw s (c :: rest) = true
    · rw [replaceAll_cons_pos t hs hstw]
      have h1 := replaceAll_ge (Nat.le_of_lt hlt) ((c :: rest).drop s.length)
      have h2 := stw_le hstw
      simp only [List.length_append, List.length_drop, List.length_cons] at h1 h2 ⊢
      omega
    · rw [replaceAll_cons_neg t hs (by simpa using hstw)]
      have hcr : containsSub s rest = true := by
        simp only [containsSub, Bool.or_eq_true] at hcon
        rcases hcon with h | h
        · exact absurd h (by simpa using hstw)
        · exact h
      have := replaceAll_gt hs hlt rest hcr
      simp only [List.length_cons]
      omega
termination_by x => x.length
decreasing_by
  · simp

theorem insertAt_length (k : Nat) (a : CS) (ls : List CS) :
    (insertAt k a ls).length = ls.length + 1 := by
  unfold insertAt
  simp only [List.length_append, List.length_take, List.length_drop,
    List.length_singleton]
  omega

/-- C5 (amended): each of the five guarded scripts writes back (returns
`True`) exactly when the transformed content differs byte-for-byte from the
original; `fix_test_adapters.py` is excluded, as the counterexample shows it
writes unconditionally. -/
theorem c5_amended :
    (∀ c : CS, (fixChronicleContent c).1 = true ↔ (fixChronicleContent c).2 ≠ c) ∧
    (∀ b c : CS, (fixNodeTestsContent b c).1 = true ↔ (fixNodeTestsContent b c).2 ≠ c) ∧
    (∀ c : CS, (fixRewindContent c).1 = true ↔ (fixRewindContent c).2 ≠ c) ∧
    (∀ c : CS, (fixBytesContent c).1 = true ↔ (fixBytesContent c).2 ≠ c) ∧
    (∀ c : CS, (fixTestImportsContent c).1 = true ↔ (fixTestImportsContent c).2 ≠ c) := by
  refine ⟨?_, ?_, ?_, ?_, ?_⟩
  · intro c
    unfold fixChronicleContent
    split
    next h => simp [h]
    next h => simp [h]
  · intro b c
    unfold fixNodeTestsContent
    split
    · simp
    · split
      next h => simp [h]
      next h => simp [h]
  · intro c
    unfold fixRewindContent
    split
    next h =>
      have hgt := replaceAll_gt (s := rewindPat) (t := rewindRepl)
        (by decide) (by decide) c h
      simp only [true_iff, ne_eq]
      intro heq
      have := congrArg List.length heq
      omega
    next h => simp
  · intro c
    by_cases hu : containsSub bytesUsageMarker c = true
    · by_cases hh : containsSub bytesImportCheck c = true
      · rw [fixBytes_has hh]
        simp
      · have hh2 : containsSub bytesImportCheck c = false := by simpa using hh
        cases hscan : scanImportIdx 0 none (splitNl c) with
        | some i =>
          rw [fixBytes_scan hu hh2 hscan]
          simp only [true_iff, ne_eq]
          intro heq
          have h2 := congrArg splitNl heq
          rw [splitNl_insert_lines (by decide)] at h2
          have h3 := congrArg List.length h2
          rw [insertAt_length] at h3
          omega
        | none =>
          cases hpkg : findPkgIdx 0 (splitNl c) with
          | some p =>
            rw [fixBytes_pkg hu hh2 hscan hpkg]
            simp only [true_iff, ne_eq]
            intro heq
            have h2 := congrArg splitNl heq
            rw [splitNl_insert_lines (by decide)] at h2
            have h3 := congrArg List.length h2
            rw [insertAt_length] at h3
            omega
          | none =>
            rw [fixBytes_noanchor hu hh2 hscan hpkg]
            simp
    · rw [fixBytes_nouse (by simpa using hu)]
      simp
  · intro c
    by_cases h : tiToAdd c = []
    · rw [fixTI_empty h]
      simp
    · have hw := fixTI_write h
      have hl := fixTI_write_lines h
      rw [hw]
      simp only [true_iff, ne_eq]
      intro heq
      rw [hw] at hl
      simp only [] at hl
      rw [heq] at hl
      have h3 := congrArg List.length hl
      simp only [List.length_append, List.length_take, List.length_drop] at h3
      have h4 : (tiToAdd c).length ≠ 0 := by
        intro h0
        exact h (List.length_eq_zero.mp h0)
      omega

def c3WitnessInput : CS := cs "import a.b;\nBytes.elasticHeapByteBuffer()"

/-! Refinement of the anchor-scanning loop to an index-free specification:
`lastImpB` computes the index of the last `import ` line occurring before the
first class-declaration line, and `firstPkgB` the index of the first
`package ` line. -/

def classLineB (l : CS) : Bool := stw pubClassMark l || stw finClassMark l

def lastImpB : List CS → Option Nat
  | [] => none
  | l :: ls =>
    if stw impMark l then
      match lastImpB ls with
      | some j => some (j + 1)
      | none => some 0
    else if classLineB l then none
    else (lastImpB ls).map (· + 1)

def firstPkgB : List CS → Option Nat
  | [] => none
  | l :: ls => if stw pkgMark l then some 0 else (firstPkgB ls).map (· + 1)

theorem scan_eq_lastImpB : ∀ (ls : List CS) (i : Nat) (acc : Option Nat),
    scanImportIdx i acc ls =
      (match lastImpB ls with
       | some j => some (i + j)
       | none => acc)
  | [], _, _ => rfl
  | l :: ls, i, acc => by
    simp only [scanImportIdx, lastImpB]
    by_cases h1 : stw impMark l = true
    · rw [if_pos h1, if_pos h1]
      rw [scan_eq_lastImpB ls (i + 1) (some i)]
      cases hj : lastImpB ls with
      | some j =>
        show some (i + 1 + j) = some (i + (j + 1))
        congr 1
        omega
      | none =>
        show some i = some (i + 0)
        congr 1
    · rw [if_neg h1, if_neg h1]
      by_cases h2 : (stw pubClassMark l || stw finClassMark l) = true
      · rw [if_pos h2, if_pos (show classLineB l = true from h2)]
      · rw [if_neg h2, if_neg (show ¬classLineB l = true from h2)]
        rw [scan_eq_lastImpB ls (i + 1) acc]
        cases hj : lastImpB ls with
        | some j =>
          show some (i + 1 + j) = some (i + (j + 1))
          congr 1
          omega
        | none =>
          show acc = acc
          rfl

theorem findPkg_eq_firstPkgB : ∀ (ls : List CS) (i : Nat),
    findPkgIdx i ls = (firstPkgB ls).map (i + ·)
  | [], _ => rfl
  | l :: ls, i => by
    by_cases h1 : stw pkgMark l = true
    · simp [findPkgIdx, firstPkgB, h1]
    · simp only [findPkgIdx, firstPkgB]
      rw [if_neg (by simpa using h1), if_neg (by simpa using h1)]
      rw [findPkg_eq_firstPkgB ls (i + 1)]
      cases hj : firstPkgB ls with
      | some j =>
        show some (i + 1 + j) = some (i + (j + 1))
        congr 1
        omega
      | none =>
        show (none : Option Nat) = none
        rfl

theorem lastImpB_none_spec : ∀ (ls : List CS), lastImpB ls = none →
    ∀ i, i < ls.length → stw impMark (ls.getD i []) = true →
      ∃ m, m < i ∧ classLineB (ls.getD m []) = true
  | [], _, i => by simp
  | l :: ls, h, i => by
    intro hi himp
    by_cases h1 : stw impMark l = true
    · exfalso
      simp only [lastImpB, h1, if_true] at h
      rcases hj : lastImpB ls with _ | v
      · rw [hj] at h
        simp at h
      · rw [hj] at h
        simp at h
    · by_cases h2 : classLineB l = true
      · cases i with
        | zero =>
          rw [List.getD_cons_zero] at himp
          exact absurd himp h1
        | succ i2 =>
          refine ⟨0, by omega, ?_⟩
          rw [List.getD_cons_zero]
          exact h2
      · simp only [lastImpB] at h
        rw [if_neg h1, if_neg h2] at h
        have hnone : lastImpB ls = none := by
          rcases hj : lastImpB ls with _ | v
          · rfl
          · rw [hj] at h
            simp at h
        cases i with
        | zero =>
          rw [List.getD_cons_zero] at himp
          exact absurd himp h1
        | succ i2 =>
          rw [List.getD_cons_succ] at himp
          rw [List.length_cons] at hi
          obtain ⟨m, hm, hcl⟩ := lastImpB_none_spec ls hnone i2 (by omega) himp
          refine ⟨m + 1, by omega, ?_⟩
          rw [List.getD_cons_succ]
          exact hcl

theorem lastImpB_spec : ∀ (ls : List CS) (j : Nat), lastImpB ls = some j →
    j < ls.length ∧ stw impMark (ls.getD j []) = true ∧
      ∀ i, j < i → i < ls.length → stw impMark (ls.getD i []) = true →
        ∃ m, m < i ∧ classLineB (ls.getD m []) = true
  | [], j => by simp [lastImpB]
  | l :: ls, j => by
    intro h
    by_cases h1 : stw impMark l = true
    · simp only [lastImpB, h1, if_true] at h
      rcases hj : lastImpB ls with _ | j2
      · rw [hj] at h
        simp only [Option.some.injEq] at h
        subst h
        refine ⟨by simp, by rw [List.getD_cons_zero]; exact h1, ?_⟩
        intro i h0i hi himp
        cases i with
        | zero => omega
        | succ i2 =>
          rw [List.getD_cons_succ] at himp
          rw [List.length_cons] at hi
          obtain ⟨m, hm, hcl⟩ := lastImpB_none_spec ls hj i2 (by omega) himp
          refine ⟨m + 1, by omega, ?_⟩
          rw [List.getD_cons_succ]
          exact hcl
      · rw [hj] at h
        simp only [Option.some.injEq] at h
        subst h
        obtain ⟨ha, hb, hmax⟩ := lastImpB_spec ls j2 hj
        refine ⟨by simp only [List.length_cons]; omega,
          by rw [List.getD_cons_succ]; exact hb, ?_⟩
        intro i hji hi himp
        cases i with
        | zero => omega
        | succ i2 =>
          rw [List.getD_cons_succ] at himp
          rw [List.length_cons] at hi
          obtain ⟨m, hm, hcl⟩ := hmax i2 (by omega) (by omega) himp
          refine ⟨m + 1, by omega, ?_⟩
          rw [List.getD_cons_succ]
          exact hcl
    · by_cases h2 : classLineB l = true
      · exfalso
        simp only [lastImpB] at h
        rw [if_neg h1, if_pos h2] at h
        simp at h
      · simp only [lastImpB] at h
        rw [if_neg h1, if_neg h2] at h
        rcases hj : lastImpB ls with _ | j2
        · rw [hj] at h
          simp at h
        · rw [hj] at h
          have h5 : some (j2 + 1) = some j := h
          have h6 := Option.some.inj h5
          subst h6
          obtain ⟨ha, hb, hmax⟩ := lastImpB_spec ls j2 hj
          refine ⟨by simp only [List.length_cons]; omega,
            by rw [List.getD_cons_succ]; exact hb, ?_⟩
          intro i hji hi himp
          cases i with
          | zero => omega
          | succ i2 =>
            rw [List.getD_cons_succ] at himp
            rw [List.length_cons] at hi
            obtain ⟨m, hm, hcl⟩ := hmax i2 (by omega) (by omega) himp
            refine ⟨m + 1, by omega, ?_⟩
            rw [List.getD_cons_succ]
            exact hcl

theorem firstPkgB_spec : ∀ (ls : List CS) (p : Nat), firstPkgB ls = some p →
    p < ls.length ∧ stw pkgMark (ls.getD p []) = true ∧
      ∀ i, i < p → stw pkgMark (ls.getD i []) = false
  | [], p => by simp [firstPkgB]
  | l :: ls, p => by
    intro h
    by_cases h1 : stw pkgMark l = true
    · simp only [firstPkgB, h1, if_true, Option.some.injEq] at h
      subst h
      refine ⟨by simp, by rw [List.getD_cons_zero]; exact h1, by omega⟩
    · simp only [firstPkgB] at h
      rw [if_neg h1] at h
      rcases hj : firstPkgB ls with _ | p2
      · rw [hj] at h
        simp at h
      · rw [hj] at h
        have h5 : some (p2 + 1) = some p := h
        have h6 := Option.some.inj h5
        subst h6
        obtain ⟨ha, hb, hmin⟩ := firstPkgB_spec ls p2 hj
        refine ⟨by simp only [List.length_cons]; omega,
          by rw [List.getD_cons_succ]; exact hb, ?_⟩
        intro i hi
        cases i with
        | zero =>
          rw [List.getD_cons_zero]
          simpa using h1
        | succ i2 =>
          rw [List.getD_cons_succ]
          exact hmin i2 (by omega)

/-- C3 (amended): when the scanned region (before the first
`public class`/`final class` line) contains an import line, the new import is
inserted immediately after the last such import line, preserving all existing
lines in order; when it does not but a `package ` line exists, the new import
is inserted two lines after the first package line (one line later than the
position immediately after the package declaration which the original claim
states, as the counterexample shows), and import lines occurring only after a
class-declaration line are ignored by the scan. -/
theorem c3_amended (c : CS)
    (hu : containsSub bytesUsageMarker c = true)
    (hh : containsSub bytesImportCheck c = false) :
    (∀ j, scanImportIdx 0 none (splitNl c) = some j →
      j < (splitNl c).length ∧
      stw impMark ((splitNl c).getD j []) = true ∧
      (∀ i, j < i → i < (splitNl c).length →
        stw impMark ((splitNl c).getD i []) = true →
        ∃ m, m < i ∧ classLineB ((splitNl c).getD m []) = true) ∧
      splitNl (fixBytesContent c).2 = insertAt (j + 1) bytesImportStmt (splitNl c)) ∧
    (scanImportIdx 0 none (splitNl c) = none →
      ∀ p, findPkgIdx 0 (splitNl c) = some p →
      p < (splitNl c).length ∧
      stw pkgMark ((splitNl c).getD p []) = true ∧
      (∀ i, i < p → stw pkgMark ((splitNl c).getD i []) = false) ∧
      splitNl (fixBytesContent c).2 = insertAt (p + 2) bytesImportStmt (splitNl c)) := by
  constructor
  · intro j hscan
    have hb : lastImpB (splitNl c) = some j := by
      have hsh := scan_eq_lastImpB (splitNl c) 0 none
      rw [hscan] at hsh
      cases hj : lastImpB (splitNl c) with
      | some j2 =>
        rw [hj] at hsh
        have h5 : some j = some (0 + j2) := hsh
        have h6 := Option.some.inj h5
        simp only [Option.some.injEq]
        omega
      | none =>
        rw [hj] at hsh
        have h5 : some j = (none : Option Nat) := hsh
        exact absurd h5 (by simp)
    obtain ⟨ha, hbb, hmax⟩ := lastImpB_spec (splitNl c) j hb
    refine ⟨ha, hbb, hmax, ?_⟩
    rw [fixBytes_scan hu hh hscan]
    exact splitNl_insert_lines (by decide)
  · intro hscan p hpkg
    have hb : firstPkgB (splitNl c) = some p := by
      have hsh := findPkg_eq_firstPkgB (splitNl c) 0
      rw [hpkg] at hsh
      cases hj : firstPkgB (splitNl c) with
      | some p2 =>
        rw [hj] at hsh
        have h5 : some p = some (0 + p2) := hsh
        have h6 := Option.some.inj h5
        simp only [Option.some.injEq]
        omega
      | none =>
        rw [hj] at hsh
        have h5 : some p = (none : Option Nat) := hsh
        exact absurd h5 (by simp)
    obtain ⟨ha, hbb, hmin⟩ := firstPkgB_spec (splitNl c) p hb
    refine ⟨ha, hbb, hmin, ?_⟩
    rw [fixBytes_pkg hu hh hscan hpkg]
    exact splitNl_insert_lines (by decide)

/-- C3 witness: the amended claim applied to content whose first line is an
actual import line, inserting at index 1 immediately after it. -/
theorem c3_witness :
    splitNl (fixBytesContent c3WitnessInput).2 =
      insertAt (0 + 1) bytesImportStmt (splitNl c3WitnessInput) :=
  ((c3_amended c3WitnessInput (by decide) (by decide)).1 0 (by decide)).2.2.2

unseal replaceAll subArg subBA removeBBImport in
/-- C2 counterexample: applying `fix_chronicle_imports.py` to a file that
has both `net.openhft.chronicle.bytes.Bytes` and
`net.openhft.chronicle.bytes.BytesOut` among its imports rewrites both lines
to `import io.sirix.node.BytesOut;`, producing two identical import lines. -/
theorem c2_counterexample :
    (splitNl (fixChronicleContent c2Cex).2).count sirixOutImp = 2 ∧
    (fixChronicleContent c2Cex).1 = true := by
  exact ⟨by decide, by decide⟩

/-- C3 counterexample: with no import line and a package line at index 0, the
insertion lands at index 2 (`import_insert_idx = i + 1` followed by
`insert(import_insert_idx + 1, ...)`), not immediately after the package
declaration line (index 1) as the claim states. -/
theorem c3_counterexample :
    (∀ l ∈ splitNl c3Cex, stw impMark l = false) ∧
    findPkgIdx 0 (splitNl c3Cex) = some 0 ∧
    (fixBytesContent c3Cex).1 = true ∧
    splitNl (fixBytesContent c3Cex).2 ≠ insertAt 1 bytesImportStmt (splitNl c3Cex) := by
  exact ⟨by decide, by decide, by decide, by decide⟩

/-- C4 counterexample: on content with no `import ` line and no `package `
line, `fix_test_imports.py` does not skip; `import_insert_idx` stays `-1` and
`lines.insert(0, ...)` prepends the import, changing the content. -/
theorem c4_counterexample :
    (∀ l ∈ splitNl c4Cex, stw impMark l = false ∧ stw pkgMark l = false) ∧
    (fixTestImportsContent c4Cex).2 ≠ c4Cex ∧
    (fixTestImportsContent c4Cex).1 = true := by
  exact ⟨by decide, by decide, by decide⟩

unseal replaceAll in
/-- C5 counterexample: `fix_test_adapters.py` writes the file back and
reports it fixed even when the two substitutions change nothing, so
write-back is not equivalent to a byte-for-byte content change. -/
theorem c5_counterexample :
    (fixAdaptersContent c5Cex).1 = true ∧ (fixAdaptersContent c5Cex).2 = c5Cex := by
  exact ⟨by decide, by decide⟩

unseal replaceAll subArg subBA removeBBImport in
/-- C6 code-bug witness: on a file whose only uses of `ByteBuffer` are its
own import line and the single rewritten `Bytes<ByteBuffer>` span, the
rewrite fires but `import java.nio.ByteBuffer;` is not deleted, because the
removal guard counts that import line as a remaining `ByteBuffer`
occurrence. -/
theorem c6_code_bug :
    (fixChronicleContent c6FailingInput).2 =
      cs "import java.nio.ByteBuffer;\ncomputeHash(BytesOut<?> x)\n" ∧
    (fixChronicleContent c6FailingInput).1 = true := by
  exact ⟨by decide, by decide⟩

/-- C7 counterexample: in `fix_test_imports.py` a write-back failure on the
second file of three escapes the unguarded loop, aborting the batch; the
third file is never processed and no summary count is produced, while a
guarded loop would have reported 2 changed files. -/
theorem c7_counterexample :
    runTestImportsBatch 0
      [⟨1, some c7Content, true⟩, ⟨2, some c7Content, false⟩, ⟨3, some c7Content, true⟩] =
      Except.error 2 ∧
    runCaughtBatch fixTestImportsContent 0
      [⟨1, some c7Content, true⟩, ⟨2, some c7Content, false⟩, ⟨3, some c7Content, true⟩] = 2 := by
  exact ⟨by rfl, by rfl⟩

/-- C8 counterexample: `fix_bytes_imports.py` checks for an existing import
with the substring `import io.sirix.node.Bytes` (no semicolon), so a file
that imports `io.sirix.node.BytesOut`, uses the marker, and lacks the exact
statement `import io.sirix.node.Bytes;` is wrongly left without insertion. -/
theorem c8_counterexample :
    containsSub bytesUsageMarker c8Cex = true ∧
    containsSub bytesImportStmt c8Cex = false ∧
    scanImportIdx 0 none (splitNl c8Cex) = some 1 ∧
    fixBytesContent c8Cex = (false, c8Cex) := by
  exact ⟨by decide, by decide, by decide, by decide⟩

/-- C10: every per-file transform is deterministic: on equal basenames and
byte-identical contents, each embedded transform produces identical output
content and identical changed verdicts; the embeddings take no other input. -/
theorem c10_determinism (b₁ b₂ c₁ c₂ : CS) (hb : b₁ = b₂) (hc : c₁ = c₂) :
    fixNodeTestsContent b₁ c₁ = fixNodeTestsContent b₂ c₂ ∧
    fixChronicleContent c₁ = fixChronicleContent c₂ ∧
    fixRewindContent c₁ = fixRewindContent c₂ ∧
    fixBytesContent c₁ = fixBytesContent c₂ ∧
    fixTestImportsContent c₁ = fixTestImportsContent c₂ ∧
    fixAdaptersContent c₁ = fixAdaptersContent c₂ := by
  subst hb
  subst hc
  exact ⟨rfl, rfl, rfl, rfl, rfl, rfl⟩

/-- C10 witness: the determinism theorem instantiated at a concrete basename
and content. -/
theorem c10_witness :
    fixNodeTestsContent (cs "BooleanNodeTest.java") c3Cex =
      fixNodeTestsContent (cs "BooleanNodeTest.java") c3Cex ∧
    fixChronicleContent c3Cex = fixChronicleContent c3Cex ∧
    fixRewindContent c3Cex = fixRewindContent c3Cex ∧
    fixBytesContent c3Cex = fixBytesContent c3Cex ∧
    fixTestImportsContent c3Cex = fixTestImportsContent c3Cex ∧
    fixAdaptersContent c3Cex = fixAdaptersContent c3Cex :=
  c10_determinism (cs "BooleanNodeTest.java") (cs "BooleanNodeTest.java") c3Cex c3Cex rfl rfl

/-! C9 machinery: span decomposition showing that each rewrite substitutes
only the spans matched by its pattern. -/

/-- A full match of the capture-group pattern (literal head `po`, then
`[^)]+`, then `)`) starts at the head of `y`. -/
def fullMatchAt (po : CS) (y : CS) : Bool :=
  stw po y && (grabArg (y.drop po.length)).isSome

/-- Span decomposition relating a scanner input to its output: characters at
which no full match starts are copied verbatim, and each matched span
`po ++ arg ++ ")"` is rewritten to `pn ++ arg ++ ")"`, the captured argument
kept byte-identical. -/
inductive SubArgDecomp (po pn : CS) : CS → CS → Prop
  | nil : SubArgDecomp po pn [] []
  | copy (c : Char) (x y : CS) (hnm : fullMatchAt po (c :: x) = false)
      (h : SubArgDecomp po pn x y) : SubArgDecomp po pn (c :: x) (c :: y)
  | hit (arg r y : CS) (hne : arg ≠ []) (hfree : ∀ ch ∈ arg, notRParen ch = true)
      (h : SubArgDecomp po pn r y) :
      SubArgDecomp po pn (po ++ arg ++ ')' :: r) (pn ++ arg ++ ')' :: y)

theorem grabArg_arg_chars {y a r : CS} (h : grabArg y = some (a, r)) :
    ∀ ch ∈ a, notRParen ch = true := by
  unfold grabArg at h
  split at h
  next r0 heq =>
    split at h
    · exact absurd h (by simp)
    next hne =>
      simp only [Option.some.injEq, Prod.mk.injEq] at h
      obtain ⟨rfl, rfl⟩ := h
      intro ch hch
      exact List.mem_takeWhile_imp hch
  next heq => exact absurd h (by simp)

theorem stw_drop_decomp {s x : CS} (h : stw s x = true) :
    x = s ++ x.drop s.length := by
  obtain ⟨v, hv⟩ := stw_iff.mp h
  rw [hv, List.drop_left]

theorem subArg_decomp_aux (po pn : CS) :
    ∀ n, ∀ x : CS, x.length ≤ n → SubArgDecomp po pn x (subArg po pn x) := by
  intro n
  induction n with
  | zero =>
    intro x hlen
    cases x with
    | nil =>
      rw [subArg]
      exact SubArgDecomp.nil
    | cons c rest => simp at hlen
  | succ n ih =>
    intro x hlen
    cases x with
    | nil =>
      rw [subArg]
      exact SubArgDecomp.nil
    | cons c rest =>
      rw [List.length_cons] at hlen
      rw [subArg]
      split
      next hstw =>
        split
        next arg r hg =>
          have hd : c :: rest = po ++ (c :: rest).drop po.length := stw_drop_decomp hstw
          obtain ⟨hv, hne⟩ := grabArg_sound hg
          have hx : c :: rest = po ++ arg ++ ')' :: r := by
            rw [hd, hv, ← List.append_assoc]
          have h3 := congrArg List.length hx
          simp only [List.length_cons, List.length_append] at h3
          have h4 := List.length_pos.mpr hne
          rw [hx]
          exact SubArgDecomp.hit arg r _ hne (grabArg_arg_chars hg)
            (ih r (by omega))
        next hg =>
          exact SubArgDecomp.copy c rest _ (by simp [fullMatchAt, hg])
            (ih rest (by omega))
      next hstw =>
        have hf : stw po (c :: rest) = false := by
          cases hb : stw po (c :: rest)
          · rfl
          · exact absurd hb hstw
        exact SubArgDecomp.copy c rest _ (by simp [fullMatchAt, hf])
          (ih rest (by omega))

theorem subArg_decomp (po pn : CS) (x : CS) : SubArgDecomp po pn x (subArg po pn x) :=
  subArg_decomp_aux po pn x.length x le_rfl

theorem fixRewind_snd (x : CS) :
    (fixRewindContent x).2 = replaceAll rewindPat rewindRepl x := by
  cases h : containsSub rewindPat x with
  | false =>
    simp only [fixRewindContent, h, Bool.false_eq_true, if_false]
    exact (replaceAll_of_not_contains rewindRepl (by decide) x h).symm
  | true => simp only [fixRewindContent, h, if_true]

/-- C9: each rewrite rule substitutes only the spans matched by its pattern
and rewrites all non-overlapping matches in one pass: the rewind rewrite and
the two fixed `Bytes<...>` rewrites split the input into pattern-free chunks
joined by the pattern, the output being the very same chunks joined by the
replacement, so every character outside the matched spans is byte-identical;
the two capture-group `computeHash` rewrites relate input and output by a
span decomposition that copies verbatim every character at which no match
starts and rewrites each matched span keeping the captured argument. -/
theorem c9_frame :
    (∀ x : CS, ∃ chunks : List CS, chunks ≠ [] ∧
      x = joinWith rewindPat chunks ∧
      (fixRewindContent x).2 = joinWith rewindRepl chunks ∧
      ∀ c0 ∈ chunks, containsSub rewindPat c0 = false) ∧
    (∀ x : CS, ∃ chunks : List CS, chunks ≠ [] ∧
      x = joinWith bbGeneric chunks ∧
      replaceAll bbGeneric bytesOutQ x = joinWith bytesOutQ chunks ∧
      ∀ c0 ∈ chunks, containsSub bbGeneric c0 = false) ∧
    (∀ x : CS, ∃ chunks : List CS, chunks ≠ [] ∧
      x = joinWith byteArrGeneric chunks ∧
      replaceAll byteArrGeneric bytesOutQ x = joinWith bytesOutQ chunks ∧
      ∀ c0 ∈ chunks, containsSub byteArrGeneric c0 = false) ∧
    (∀ x : CS, SubArgDecomp chOld chNew x (subArg chOld chNew x)) ∧
    (∀ x : CS, SubArgDecomp chfOld chfNew x (subArg chfOld chfNew x)) := by
  refine ⟨?_, ?_, ?_, ?_, ?_⟩
  · intro x
    rw [fixRewind_snd]
    exact replaceAll_chunks rewindPat rewindRepl (by decide) x
  · intro x
    exact replaceAll_chunks bbGeneric bytesOutQ (by decide) x
  · intro x
    exact replaceAll_chunks byteArrGeneric bytesOutQ (by decide) x
  · exact subArg_decomp chOld chNew
  · exact subArg_decomp chfOld chfNew


/-! Idempotence of the `\bBytes\s+ident\s*=` substitution (`subBA`): the
replacement `BytesOut<?> ident =` can never be re-matched, because `Bytes`
inside `BytesOut` is followed by a word character and the re-emitted
identifier is followed by ` =`. -/

theorem subBA_nil (prev : Option Char) : subBA prev [] = [] := by
  rw [subBA.eq_def]

theorem subBA_copy_bfail {p : Char} (h : isWordChar p = true) (c : Char) (z : CS) :
    subBA (some p) (c :: z) = c :: subBA (some c) z := by
  conv_lhs => rw [subBA.eq_def]
  split
  next heq => exact absurd heq (by simp)
  next c2 rest2 heq =>
    injection heq with h1 h2
    subst h1
    subst h2
    rw [if_neg (by simp [h])]

theorem subBA_copy_nomatch (prev : Option Char) {c : Char} {z : CS}
    (h : baMatch (c :: z) = none) :
    subBA prev (c :: z) = c :: subBA (some c) z := by
  conv_lhs => rw [subBA.eq_def]
  split
  next heq => exact absurd heq (by simp)
  next c2 rest2 heq =>
    injection heq with h1 h2
    subst h1
    subst h2
    split
    · split
      next idt y4 hm => rw [h] at hm; exact absurd hm (by simp)
      next => rfl
    · rfl

theorem subBA_hit {prev : Option Char} {c : Char} {z idt y4 : CS}
    (hb : (match prev with | none => true | some p => !isWordChar p) = true)
    (h : baMatch (c :: z) = some (idt, y4)) :
    subBA prev (c :: z) = baRepl idt ++ subBA (some '=') y4 := by
  conv_lhs => rw [subBA.eq_def]
  split
  next heq => exact absurd heq (by simp)
  next c2 rest2 heq =>
    injection heq with h1 h2
    subst h1
    subst h2
    rw [if_pos hb]
    split
    next idt2 y42 hm =>
      rw [h] at hm
      simp only [Option.some.injEq, Prod.mk.injEq] at hm
      rw [hm.1, hm.2]
    next hm => rw [h] at hm; exact absurd hm (by simp)

theorem stw_bytes_false {a : Char} (h : a ≠ 'B') (x : CS) :
    stw bytesTok (a :: x) = false := by
  have hb : bytesTok = 'B' :: cs "ytes" := by decide
  rw [hb]
  simp only [stw, Bool.and_eq_false_iff]
  left
  exact beq_eq_false_iff_ne.mpr (fun he => h he.symm)

theorem baMatch_none_of_not_stw {y : CS} (h : stw bytesTok y = false) :
    baMatch y = none := by
  unfold baMatch
  rw [if_neg (by simp [h])]

theorem isPyWs_cases {ch : Char} (h : isPyWs ch = true) :
    ch = ' ' ∨ ch = '\t' ∨ ch = '\n' ∨ ch = '\r' ∨ ch = '\x0b' ∨ ch = '\x0c' := by
  simp only [isPyWs, Bool.or_eq_true, beq_iff_eq] at h
  tauto

theorem isPyWs_ne_B {ch : Char} (h : isPyWs ch = true) : ch ≠ 'B' := by
  rcases isPyWs_cases h with rfl | rfl | rfl | rfl | rfl | rfl <;> decide

theorem isPyWs_not_word {ch : Char} (h : isPyWs ch = true) : isWordChar ch = false := by
  rcases isPyWs_cases h with rfl | rfl | rfl | rfl | rfl | rfl <;> decide

theorem word_not_ws {ch : Char} (h : isWordChar ch = true) : isPyWs ch = false := by
  cases hw : isPyWs ch with
  | false => rfl
  | true => rw [isPyWs_not_word hw] at h; exact absurd h (by simp)

theorem identStart_word {ch : Char} (h : isIdentStart ch = true) :
    isWordChar ch = true := by
  simp only [isIdentStart, Bool.or_eq_true, Bool.and_eq_true] at h
  simp only [isWordChar, Bool.or_eq_true, Bool.and_eq_true]
  tauto

theorem tw_all {p : Char → Bool} : ∀ {u : CS}, (∀ ch ∈ u, p ch = true) →
    u.takeWhile p = u
  | [], _ => rfl
  | a :: u, h => by
    rw [List.takeWhile_cons, if_pos (h a (by simp))]
    rw [tw_all (fun ch hch => h ch (List.mem_cons_of_mem a hch))]

theorem dw_all {p : Char → Bool} : ∀ {u : CS}, (∀ ch ∈ u, p ch = true) →
    u.dropWhile p = []
  | [], _ => rfl
  | a :: u, h => by
    rw [List.dropWhile_cons, if_pos (h a (by simp))]
    exact dw_all (fun ch hch => h ch (List.mem_cons_of_mem a hch))

theorem tw_append_all {p : Char → Bool} : ∀ {u : CS} (v : CS),
    (∀ ch ∈ u, p ch = true) → (u ++ v).takeWhile p = u ++ v.takeWhile p
  | [], v, _ => rfl
  | a :: u, v, h => by
    rw [List.cons_append, List.takeWhile_cons, if_pos (h a (by simp))]
    rw [tw_append_all v (fun ch hch => h ch (List.mem_cons_of_mem a hch))]
    rfl

theorem dw_append_all {p : Char → Bool} : ∀ {u : CS} (v : CS),
    (∀ ch ∈ u, p ch = true) → (u ++ v).dropWhile p = v.dropWhile p
  | [], v, _ => rfl
  | a :: u, v, h => by
    rw [List.cons_append, List.dropWhile_cons, if_pos (h a (by simp))]
    exact dw_append_all v (fun ch hch => h ch (List.mem_cons_of_mem a hch))

theorem tw_cons_neg {p : Char → Bool} {a : Char} (l : CS) (h : p a = false) :
    (a :: l).takeWhile p = [] := by
  rw [List.takeWhile_cons, if_neg (by simp [h])]

theorem dw_cons_neg {p : Char → Bool} {a : Char} (l : CS) (h : p a = false) :
    (a :: l).dropWhile p = a :: l := by
  rw [List.dropWhile_cons, if_neg (by simp [h])]

theorem dw_head_false {p : Char → Bool} : ∀ (l : CS) (d : Char) (tl : CS),
    l.dropWhile p = d :: tl → p d = false
  | [], d, tl => by intro h; exact absurd h (by simp)
  | a :: l, d, tl => by
    intro h
    rw [List.dropWhile_cons] at h
    split at h
    · exact dw_head_false l d tl h
    next hpa =>
      simp only [List.cons.injEq] at h
      rw [← h.1]
      cases hb : p a with
      | false => rfl
      | true => exact absurd hb hpa

theorem subBA_word_run : ∀ (u : CS) (p : Char) (y : CS), isWordChar p = true →
    (∀ ch ∈ u, isWordChar ch = true) →
    ∃ q, isWordChar q = true ∧ subBA (some p) (u ++ y) = u ++ subBA (some q) y
  | [], p, y => fun hp _ => ⟨p, hp, rfl⟩
  | a :: u, p, y => fun hp hu => by
    have ha : isWordChar a = true := hu a (by simp)
    obtain ⟨q, hq, he⟩ :=
      subBA_word_run u a y ha (fun ch hch => hu ch (List.mem_cons_of_mem a hch))
    refine ⟨q, hq, ?_⟩
    rw [List.cons_append, subBA_copy_bfail hp, he]
    rfl

theorem subBA_ws_run : ∀ (u : CS) (prev : Option Char) (y : CS),
    (∀ ch ∈ u, isPyWs ch = true) → u ≠ [] →
    ∃ q, isPyWs q = true ∧ subBA prev (u ++ y) = u ++ subBA (some q) y
  | [], _, _ => fun _ hne => absurd rfl hne
  | a :: u, prev, y => fun hu _ => by
    have ha : isPyWs a = true := hu a (by simp)
    have hcopy : subBA prev ((a :: u) ++ y) = a :: subBA (some a) (u ++ y) := by
      rw [List.cons_append]
      exact subBA_copy_nomatch prev
        (baMatch_none_of_not_stw (stw_bytes_false (isPyWs_ne_B ha) _))
    cases u with
    | nil => exact ⟨a, ha, by simpa using hcopy⟩
    | cons b u2 =>
      obtain ⟨q, hq, he⟩ := subBA_ws_run (b :: u2) (some a) y
        (fun ch hch => hu ch (List.mem_cons_of_mem a hch)) (by simp)
      exact ⟨q, hq, by rw [hcopy, he]; rfl⟩

theorem subBA_neB_run : ∀ (u : CS) (prev : Option Char) (y : CS),
    (∀ ch ∈ u, ch ≠ 'B') → u ≠ [] →
    ∃ q, q ∈ u ∧ subBA prev (u ++ y) = u ++ subBA (some q) y
  | [], _, _ => fun _ hne => absurd rfl hne
  | a :: u, prev, y => fun hu _ => by
    have ha : a ≠ 'B' := hu a (by simp)
    have hcopy : subBA prev ((a :: u) ++ y) = a :: subBA (some a) (u ++ y) := by
      rw [List.cons_append]
      exact subBA_copy_nomatch prev (baMatch_none_of_not_stw (stw_bytes_false ha _))
    cases u with
    | nil => exact ⟨a, by simp, by simpa using hcopy⟩
    | cons b u2 =>
      obtain ⟨q, hq, he⟩ := subBA_neB_run (b :: u2) (some a) y
        (fun ch hch => hu ch (List.mem_cons_of_mem a hch)) (by simp)
      exact ⟨q, List.mem_cons_of_mem a hq, by rw [hcopy, he]; rfl⟩

/-- The `\s+ident\s*=` part of the `\bBytes` pattern, as checked after the
literal `Bytes` head. -/
def baTail (t : CS) : Option (CS × CS) :=
  if (t.takeWhile isPyWs).isEmpty then none
  else
    match t.dropWhile isPyWs with
    | [] => none
    | d :: tl =>
      if isIdentStart d then
        match ((d :: tl).dropWhile isWordChar).dropWhile isPyWs with
        | e :: y4 => if e = '=' then some ((d :: tl).takeWhile isWordChar, y4) else none
        | [] => none
      else none

theorem eqMatch_if (y : CS) (idt : CS) :
    (match y with
     | '=' :: y4 => some (idt, y4)
     | _ => none) =
    (match y with
     | e :: y4 => if e = '=' then some (idt, y4) else none
     | [] => (none : Option (CS × CS))) := by
  cases y with
  | nil => rfl
  | cons e y4 =>
    by_cases he : e = '='
    · subst he
      show some (idt, y4) = if ('=' : Char) = '=' then some (idt, y4) else none
      rw [if_pos rfl]
    · show (match e :: y4 with
        | '=' :: y4 => some (idt, y4)
        | _ => none) = if e = '=' then some (idt, y4) else none
      rw [if_neg he]
      split
      next y4x heq =>
        injection heq with h1 h2
        exact absurd h1 he
      next => rfl

theorem baMatch_bytes_append (t : CS) : baMatch (bytesTok ++ t) = baTail t := by
  have hstw : stw bytesTok (bytesTok ++ t) = true := stw_append t (stw_refl bytesTok)
  have hdrop : (bytesTok ++ t).drop bytesTok.length = t := List.drop_left bytesTok t
  unfold baMatch baTail
  rw [if_pos hstw, hdrop]
  by_cases hws : (t.takeWhile isPyWs).isEmpty
  · rw [if_pos hws, if_pos hws]
  · rw [if_neg hws, if_neg hws]
    cases hd : t.dropWhile isPyWs with
    | nil => rfl
    | cons d tl =>
      show (if isIdentStart d then
          match ((d :: tl).dropWhile isWordChar).dropWhile isPyWs with
          | '=' :: y4 => some ((d :: tl).takeWhile isWordChar, y4)
          | _ => none
        else none) =
        (if isIdentStart d then
          match ((d :: tl).dropWhile isWordChar).dropWhile isPyWs with
          | e :: y4 =>
            if e = '=' then some ((d :: tl).takeWhile isWordChar, y4) else none
          | [] => none
        else none)
      by_cases hid : isIdentStart d = true
      · rw [if_pos hid, if_pos hid]
        exact eqMatch_if _ _
      · rw [if_neg hid, if_neg hid]

theorem baMatch_props {y idt y4 : CS} (h : baMatch y = some (idt, y4)) :
    idt ≠ [] ∧ ∀ ch ∈ idt, isWordChar ch = true := by
  unfold baMatch at h
  split at h
  case isFalse => exact absurd h (by simp)
  case isTrue h1 =>
    split at h
    case isTrue => exact absurd h (by simp)
    case isFalse h2 =>
      split at h
      case h_1 => exact absurd h (by simp)
      case h_2 d tl heq1 =>
        split at h
        case isFalse => exact absurd h (by simp)
        case isTrue h4 =>
          split at h
          case h_2 => exact absurd h (by simp)
          case h_1 y4x heq2 =>
            simp only [Option.some.injEq, Prod.mk.injEq] at h
            obtain ⟨h5, h6⟩ := h
            constructor
            · rw [← h5]
              rw [List.takeWhile_cons, if_pos (identStart_word h4)]
              simp
            · intro ch hch
              rw [← h5] at hch
              exact List.mem_takeWhile_imp hch

theorem stw_confine : ∀ (u p w : CS), stw p (u ++ w) = true → u.length ≤ p.length →
    stw u p = true
  | [], p, w => fun _ _ => rfl
  | a :: u, [], w => by
    intro _ hlen
    simp at hlen
  | a :: u, b :: p, w => by
    intro h hlen
    simp only [List.cons_append, stw, Bool.and_eq_true] at h ⊢
    refine ⟨?_, stw_confine u p w h.2 (by simpa using hlen)⟩
    have : b = a := by simpa using h.1
    simp [this]

theorem stw_mem {u p : CS} (h : stw u p = true) : ∀ ch ∈ u, ch ∈ p := by
  obtain ⟨v, rfl⟩ := stw_iff.mp h
  intro ch hch
  exact List.mem_append_left v hch

theorem baRepl_cons (idt X : CS) :
    baRepl idt ++ X = 'B' :: (cs "ytesOut<?> " ++ (idt ++ (cs " =" ++ X))) := by
  unfold baRepl
  rw [show cs "BytesOut<?> " = 'B' :: cs "ytesOut<?> " from by decide]
  simp [List.append_assoc]

theorem baTail_ws_empty {t : CS} (h : t.takeWhile isPyWs = []) : baTail t = none := by
  unfold baTail
  rw [h]
  rfl

theorem baTail_nil_tail {t w1 : CS} (htw : t.takeWhile isPyWs = w1) (hne : w1 ≠ [])
    (hdw : t.dropWhile isPyWs = []) : baTail t = none := by
  unfold baTail
  rw [htw, hdw, if_neg (by simp [List.isEmpty_iff, hne])]

theorem baTail_parts {t w1 : CS} {d : Char} {tl : CS}
    (htw : t.takeWhile isPyWs = w1) (hne : w1 ≠ [])
    (hdw : t.dropWhile isPyWs = d :: tl) :
    baTail t = (if isIdentStart d then
        match ((d :: tl).dropWhile isWordChar).dropWhile isPyWs with
        | e :: y4 => if e = '=' then some ((d :: tl).takeWhile isWordChar, y4) else none
        | [] => none
      else none) := by
  unfold baTail
  rw [htw, hdw, if_neg (by simp [List.isEmpty_iff, hne])]

theorem eqIf_none {y idt : CS} {e : Char} {y4 : CS} (hy : y = e :: y4) (he : e ≠ '=') :
    (match y with
     | e2 :: y42 => if e2 = '=' then some (idt, y42) else none
     | [] => (none : Option (CS × CS))) = none := by
  subst hy
  show (if e = '=' then some (idt, y4) else none) = none
  rw [if_neg he]

theorem eqIf_none_nil {idt : CS} :
    (match ([] : CS) with
     | e2 :: y42 => if e2 = '=' then some (idt, y42) else none
     | [] => (none : Option (CS × CS))) = none := rfl

theorem eqIf_ne {idt : CS} {m : Char} {t5 : CS}
    (h : (match m :: t5 with
          | e :: y4 => if e = '=' then some (idt, y4) else none
          | [] => (none : Option (CS × CS))) = none) : m ≠ '=' := by
  intro he
  subst he
  simp at h

theorem baMatch_BytesOut (Z : CS) : baMatch (cs "BytesOut<?> " ++ Z) = none := by
  rw [show cs "BytesOut<?> " = bytesTok ++ cs "Out<?> " from by decide, List.append_assoc,
    baMatch_bytes_append]
  apply baTail_ws_empty
  rw [show cs "Out<?> " ++ Z = 'O' :: (cs "ut<?> " ++ Z) from by
    rw [show cs "Out<?> " = 'O' :: cs "ut<?> " from by decide]
    rfl]
  exact tw_cons_neg _ (by decide)

theorem baTail_w_repl (w idt X : CS) (hw : ∀ ch ∈ w, isPyWs ch = true) (hwne : w ≠ []) :
    baTail (w ++ (baRepl idt ++ X)) = none := by
  rw [baRepl_cons]
  have htw : (w ++ ('B' :: (cs "ytesOut<?> " ++ (idt ++ (cs " =" ++ X))))).takeWhile isPyWs
      = w := by
    rw [tw_append_all _ hw, tw_cons_neg _ (by decide), List.append_nil]
  have hdw : (w ++ ('B' :: (cs "ytesOut<?> " ++ (idt ++ (cs " =" ++ X))))).dropWhile isPyWs
      = 'B' :: (cs "ytesOut<?> " ++ (idt ++ (cs " =" ++ X))) := by
    rw [dw_append_all _ hw, dw_cons_neg _ (by decide)]
  rw [baTail_parts htw hwne hdw, if_pos (by decide)]
  have hsplit : ('B' : Char) :: (cs "ytesOut<?> " ++ (idt ++ (cs " =" ++ X))) =
      cs "BytesOut" ++ (cs "<?> " ++ (idt ++ (cs " =" ++ X))) := by
    rw [show cs "BytesOut" = 'B' :: cs "ytesOut" from by decide,
      show cs "ytesOut<?> " = cs "ytesOut" ++ cs "<?> " from by decide]
    simp [List.append_assoc]
  rw [hsplit]
  rw [dw_append_all _ (by decide : ∀ ch ∈ cs "BytesOut", isWordChar ch = true)]
  rw [show cs "<?> " ++ (idt ++ (cs " =" ++ X)) = '<' :: (cs "?> " ++ (idt ++ (cs " =" ++ X)))
    from by rw [show cs "<?> " = '<' :: cs "?> " from by decide]; rfl]
  rw [dw_cons_neg _ (by decide : isWordChar '<' = false)]
  rw [dw_cons_neg _ (by decide : isPyWs '<' = false)]
  exact eqIf_none rfl (by decide)

theorem stw_take : ∀ (p u w : CS), stw p (u ++ w) = true → p.length ≤ u.length →
    stw p u = true
  | [], _, _ => fun _ _ => rfl
  | a :: p, [], w => by
    intro _ hlen
    simp at hlen
  | a :: p, b :: u, w => by
    intro h hlen
    simp only [List.cons_append, stw, Bool.and_eq_true] at h ⊢
    exact ⟨h.1, stw_take p u w h.2 (by simpa using hlen)⟩

theorem baMatch_ident_eq (idt X : CS) (hidt : ∀ ch ∈ idt, isWordChar ch = true) :
    baMatch (idt ++ (cs " =" ++ X)) = none := by
  cases hstw : stw bytesTok (idt ++ (cs " =" ++ X)) with
  | false => exact baMatch_none_of_not_stw hstw
  | true =>
    by_cases hlen : bytesTok.length ≤ idt.length
    · have h1 : stw bytesTok idt = true := stw_take _ _ _ hstw hlen
      obtain ⟨idt2, hidt2⟩ := stw_iff.mp h1
      cases idt2 with
      | nil =>
        rw [List.append_nil] at hidt2
        rw [hidt2, baMatch_bytes_append]
        have harr : cs " =" ++ X = ' ' :: ('=' :: X) := by
          rw [show cs " =" = ' ' :: '=' :: ([] : CS) from by decide]
          rfl
        have htw : (cs " =" ++ X).takeWhile isPyWs = [' '] := by
          rw [harr, List.takeWhile_cons, if_pos (by decide), tw_cons_neg _ (by decide)]
        have hdw : (cs " =" ++ X).dropWhile isPyWs = '=' :: X := by
          rw [harr, List.dropWhile_cons, if_pos (by decide), dw_cons_neg _ (by decide)]
        rw [baTail_parts htw (by simp) hdw, if_neg (by decide)]
      | cons j0 idt3 =>
        have hj0 : isWordChar j0 = true := by
          refine hidt j0 ?_
          rw [hidt2]
          exact List.mem_append_right _ (by simp)
        rw [hidt2, List.append_assoc, baMatch_bytes_append]
        apply baTail_ws_empty
        rw [List.cons_append]
        exact tw_cons_neg _ (word_not_ws hj0)
    · have harr : idt ++ (cs " =" ++ X) = (idt ++ [' ']) ++ ('=' :: X) := by
        rw [show cs " =" = ' ' :: '=' :: ([] : CS) from by decide]
        simp [List.append_assoc]
      rw [harr] at hstw
      have h2 : stw (idt ++ [' ']) bytesTok = true := by
        refine stw_confine _ _ _ hstw ?_
        simp only [List.length_append, List.length_cons, List.length_nil] at hlen ⊢
        omega
      have h3 : (' ' : Char) ∈ bytesTok :=
        stw_mem h2 ' ' (List.mem_append_right _ (by simp))
      exact absurd h3 (by decide)

theorem subBA_stw_false : ∀ (u rest : CS) (p : Char),
    (∀ ch ∈ u, isWordChar ch = true) → isWordChar p = true →
    stw u rest = false → stw u (subBA (some p) rest) = false
  | [], rest, p => by
    intro _ _ h
    rw [show stw [] rest = true from rfl] at h
    exact absurd h (by simp)
  | a :: u, rest, p => by
    intro hu hp h
    cases rest with
    | nil => rw [subBA_nil]; exact h
    | cons d t =>
      rw [subBA_copy_bfail hp]
      cases had : a == d with
      | false => simp [stw, had]
      | true =>
        have ha : isWordChar a = true := hu a (by simp)
        have had2 : a = d := by simpa using had
        subst had2
        have hbeq : (a == a) = true := by simp
        simp only [stw, hbeq, Bool.true_and] at h ⊢
        exact subBA_stw_false u t a (fun ch hch => hu ch (List.mem_cons_of_mem a hch)) ha h

theorem baTail_none_scan (t : CS) (q0 : Char) (hq0 : isWordChar q0 = true)
    (hnone : baTail t = none) : baTail (subBA (some q0) t) = none := by
  by_cases hws : t.takeWhile isPyWs = []
  · cases t with
    | nil => rw [subBA_nil]; exact hnone
    | cons a z =>
      have ha : isPyWs a = false := by
        cases hb : isPyWs a with
        | false => rfl
        | true => rw [List.takeWhile_cons, if_pos hb] at hws; simp at hws
      rw [subBA_copy_bfail hq0]
      exact baTail_ws_empty (tw_cons_neg _ ha)
  · have hwall : ∀ ch ∈ t.takeWhile isPyWs, isPyWs ch = true :=
      fun ch hch => List.mem_takeWhile_imp hch
    have hsplit : t = t.takeWhile isPyWs ++ t.dropWhile isPyWs :=
      (List.takeWhile_append_dropWhile _ _).symm
    obtain ⟨q, hq, hscan⟩ := subBA_ws_run (t.takeWhile isPyWs) (some q0)
      (t.dropWhile isPyWs) hwall hws
    have hout : subBA (some q0) t =
        t.takeWhile isPyWs ++ subBA (some q) (t.dropWhile isPyWs) := by
      conv_lhs => rw [hsplit]
      exact hscan
    rw [hout]
    cases ht1 : t.dropWhile isPyWs with
    | nil =>
      rw [subBA_nil, List.append_nil]
      exact baTail_nil_tail (tw_all hwall) hws (dw_all hwall)
    | cons d tl =>
      have hd_nws : isPyWs d = false := dw_head_false t d tl ht1
      cases hm : baMatch (d :: tl) with
      | some pr =>
        obtain ⟨idt2, y42⟩ := pr
        rw [subBA_hit (by simp [isPyWs_not_word hq]) hm]
        exact baTail_w_repl _ idt2 _ hwall hws
      | none =>
        rw [subBA_copy_nomatch _ hm]
        rw [baTail_parts rfl hws ht1] at hnone
        by_cases hid : isIdentStart d = true
        · rw [if_pos hid] at hnone
          have hdword : isWordChar d = true := identStart_word hid
          have hu2all : ∀ ch ∈ tl.takeWhile isWordChar, isWordChar ch = true :=
            fun ch hch => List.mem_takeWhile_imp hch
          have htl : tl = tl.takeWhile isWordChar ++ tl.dropWhile isWordChar :=
            (List.takeWhile_append_dropWhile _ _).symm
          obtain ⟨q2, hq2, hscan2⟩ := subBA_word_run (tl.takeWhile isWordChar) d
            (tl.dropWhile isWordChar) hdword hu2all
          have hout2 : subBA (some d) tl =
              tl.takeWhile isWordChar ++ subBA (some q2) (tl.dropWhile isWordChar) := by
            conv_lhs => rw [htl]
            exact hscan2
          rw [hout2]
          have hdt_dw : (d :: tl).dropWhile isWordChar = tl.dropWhile isWordChar := by
            rw [List.dropWhile_cons, if_pos hdword]
          rw [hdt_dw] at hnone
          cases ht2c : tl.dropWhile isWordChar with
          | nil =>
            rw [subBA_nil, List.append_nil]
            have htwO : (t.takeWhile isPyWs ++ d :: tl.takeWhile isWordChar).takeWhile isPyWs
                = t.takeWhile isPyWs := by
              rw [tw_append_all _ hwall, tw_cons_neg _ hd_nws, List.append_nil]
            have hdwO : (t.takeWhile isPyWs ++ d :: tl.takeWhile isWordChar).dropWhile isPyWs
                = d :: tl.takeWhile isWordChar := by
              rw [dw_append_all _ hwall, dw_cons_neg _ hd_nws]
            rw [baTail_parts htwO hws hdwO, if_pos hid]
            have hall : (d :: tl.takeWhile isWordChar).dropWhile isWordChar = [] := by
              refine dw_all ?_
              intro ch hch
              rcases List.mem_cons.mp hch with rfl | h2
              · exact hdword
              · exact hu2all ch h2
            rw [hall, List.dropWhile_nil]
          | cons n0 t3 =>
            have hn0_nw : isWordChar n0 = false := dw_head_false tl n0 t3 ht2c
            rw [subBA_copy_bfail hq2]
            have htwO : (t.takeWhile isPyWs ++
                d :: (tl.takeWhile isWordChar ++ n0 :: subBA (some n0) t3)).takeWhile isPyWs
                = t.takeWhile isPyWs := by
              rw [tw_append_all _ hwall, tw_cons_neg _ hd_nws, List.append_nil]
            have hdwO : (t.takeWhile isPyWs ++
                d :: (tl.takeWhile isWordChar ++ n0 :: subBA (some n0) t3)).dropWhile isPyWs
                = d :: (tl.takeWhile isWordChar ++ n0 :: subBA (some n0) t3) := by
              rw [dw_append_all _ hwall, dw_cons_neg _ hd_nws]
            rw [baTail_parts htwO hws hdwO, if_pos hid]
            have hdwW : (d :: (tl.takeWhile isWordChar ++
                n0 :: subBA (some n0) t3)).dropWhile isWordChar
                = n0 :: subBA (some n0) t3 := by
              rw [List.dropWhile_cons, if_pos hdword, dw_append_all _ hu2all,
                dw_cons_neg _ hn0_nw]
            rw [hdwW]
            rw [ht2c] at hnone
            cases hn0ws : isPyWs n0 with
            | true =>
              have e1 : (n0 :: t3).dropWhile isPyWs = t3.dropWhile isPyWs := by
                rw [List.dropWhile_cons, if_pos hn0ws]
              rw [e1] at hnone
              have e2 : (n0 :: subBA (some n0) t3).dropWhile isPyWs
                  = (subBA (some n0) t3).dropWhile isPyWs := by
                rw [List.dropWhile_cons, if_pos hn0ws]
              rw [e2]
              have hw3all : ∀ ch ∈ t3.takeWhile isPyWs, isPyWs ch = true :=
                fun ch hch => List.mem_takeWhile_imp hch
              have ht3 : t3 = t3.takeWhile isPyWs ++ t3.dropWhile isPyWs :=
                (List.takeWhile_append_dropWhile _ _).symm
              have hS : ∃ p2, isPyWs p2 = true ∧ subBA (some n0) t3 =
                  t3.takeWhile isPyWs ++ subBA (some p2) (t3.dropWhile isPyWs) := by
                by_cases h30 : t3.takeWhile isPyWs = []
                · refine ⟨n0, hn0ws, ?_⟩
                  rw [h30, List.nil_append]
                  conv_lhs => rw [ht3]
                  rw [h30, List.nil_append]
                · obtain ⟨p2, hp2, hsc⟩ := subBA_ws_run (t3.takeWhile isPyWs) (some n0)
                    (t3.dropWhile isPyWs) hw3all h30
                  refine ⟨p2, hp2, ?_⟩
                  conv_lhs => rw [ht3]
                  exact hsc
              obtain ⟨p2, hp2, hsc⟩ := hS
              rw [hsc, dw_append_all _ hw3all]
              cases ht4 : t3.dropWhile isPyWs with
              | nil =>
                rw [subBA_nil, List.dropWhile_nil]
              | cons m t5 =>
                have hm_nws : isPyWs m = false := dw_head_false t3 m t5 ht4
                rw [ht4] at hnone
                have hmne : m ≠ '=' := eqIf_ne hnone
                cases hm2 : baMatch (m :: t5) with
                | some pr2 =>
                  obtain ⟨idt3, y43⟩ := pr2
                  rw [subBA_hit (by simp [isPyWs_not_word hp2]) hm2]
                  rw [baRepl_cons]
                  rw [dw_cons_neg _ (by decide : isPyWs 'B' = false)]
                  exact eqIf_none rfl (by decide)
                | none =>
                  rw [subBA_copy_nomatch _ hm2]
                  rw [dw_cons_neg _ hm_nws]
                  exact eqIf_none rfl hmne
            | false =>
              have e1 : (n0 :: t3).dropWhile isPyWs = n0 :: t3 := dw_cons_neg _ hn0ws
              rw [e1] at hnone
              have hn0ne : n0 ≠ '=' := eqIf_ne hnone
              rw [dw_cons_neg _ hn0ws]
              exact eqIf_none rfl hn0ne
        · rw [if_neg hid] at hnone
          have htwO : (t.takeWhile isPyWs ++ d :: subBA (some d) tl).takeWhile isPyWs
              = t.takeWhile isPyWs := by
            rw [tw_append_all _ hwall, tw_cons_neg _ hd_nws, List.append_nil]
          have hdwO : (t.takeWhile isPyWs ++ d :: subBA (some d) tl).dropWhile isPyWs
              = d :: subBA (some d) tl := by
            rw [dw_append_all _ hwall, dw_cons_neg _ hd_nws]
          rw [baTail_parts htwO hws hdwO, if_neg hid]

theorem baMatch_none_scan {c : Char} {rest : CS} (h : baMatch (c :: rest) = none) :
    baMatch (c :: subBA (some c) rest) = none := by
  by_cases hstw : stw bytesTok (c :: rest) = true
  · have hb : bytesTok = 'B' :: cs "ytes" := by decide
    obtain ⟨v, hv⟩ := stw_iff.mp hstw
    rw [hb, List.cons_append] at hv
    injection hv with h1 h2
    subst h1
    obtain ⟨q, hq, hscan⟩ := subBA_word_run (cs "ytes") 'B' v (by decide) (by decide)
    rw [h2, hscan]
    have hasm : ('B' :: (cs "ytes" ++ subBA (some q) v)) = bytesTok ++ subBA (some q) v := by
      rw [hb]; rfl
    rw [hasm, baMatch_bytes_append]
    rw [h2] at h
    have hasm2 : ('B' :: (cs "ytes" ++ v)) = bytesTok ++ v := by rw [hb]; rfl
    rw [hasm2, baMatch_bytes_append] at h
    exact baTail_none_scan v q hq h
  · apply baMatch_none_of_not_stw
    by_cases hc : c = 'B'
    · subst hc
      have hb : bytesTok = 'B' :: cs "ytes" := by decide
      have hrest : stw (cs "ytes") rest = false := by
        cases hr : stw (cs "ytes") rest with
        | false => rfl
        | true =>
          have h3 : stw bytesTok ('B' :: rest) = true := by
            rw [hb]
            simp [stw, hr]
          exact absurd h3 hstw
      have htr := subBA_stw_false (cs "ytes") rest 'B' (by decide) (by decide) hrest
      rw [hb]
      simp [stw, htr]
    · exact stw_bytes_false hc _

theorem subBA_scan_repl (prev : Option Char) (idt X : CS)
    (hidt : ∀ ch ∈ idt, isWordChar ch = true) (hne : idt ≠ []) :
    subBA prev (baRepl idt ++ X) = baRepl idt ++ subBA (some '=') X := by
  have hcons : ∀ Z : CS, cs "BytesOut<?> " ++ Z = 'B' :: (cs "ytesOut<?> " ++ Z) :=
    fun Z => by rw [show cs "BytesOut<?> " = 'B' :: cs "ytesOut<?> " from by decide]; rfl
  rw [baRepl_cons]
  have hBm : baMatch ('B' :: (cs "ytesOut<?> " ++ (idt ++ (cs " =" ++ X)))) = none := by
    rw [← hcons]
    exact baMatch_BytesOut _
  rw [subBA_copy_nomatch prev hBm]
  rw [show cs "ytesOut<?> " = cs "ytesOut" ++ cs "<?> " from by decide, List.append_assoc]
  obtain ⟨q1, hq1, hs1⟩ := subBA_word_run (cs "ytesOut") 'B'
    (cs "<?> " ++ (idt ++ (cs " =" ++ X))) (by decide) (by decide)
  rw [hs1]
  obtain ⟨q2, hq2mem, hs2⟩ := subBA_neB_run (cs "<?> ") (some q1) (idt ++ (cs " =" ++ X))
    (by decide) (by decide)
  rw [hs2]
  have hq2nw : isWordChar q2 = false :=
    (by decide : ∀ ch ∈ cs "<?> ", isWordChar ch = false) q2 hq2mem
  cases idt with
  | nil => exact absurd rfl hne
  | cons i0 idt2 =>
    have hi0 : isWordChar i0 = true := hidt i0 (by simp)
    have hmid : baMatch (i0 :: (idt2 ++ (cs " =" ++ X))) = none := by
      rw [← List.cons_append]
      exact baMatch_ident_eq _ X hidt
    rw [List.cons_append, subBA_copy_nomatch (some q2) hmid]
    obtain ⟨q3, hq3, hs3⟩ := subBA_word_run idt2 i0 (cs " =" ++ X) hi0
      (fun ch hch => hidt ch (List.mem_cons_of_mem _ hch))
    rw [hs3]
    rw [show cs " =" ++ X = ' ' :: ('=' :: X) from by
      rw [show cs " =" = ' ' :: '=' :: ([] : CS) from by decide]; rfl]
    rw [subBA_copy_bfail hq3]
    rw [subBA_copy_nomatch (some ' ')
      (baMatch_none_of_not_stw (stw_bytes_false (by decide) _))]
    rw [baRepl_cons]
    rw [show cs " =" ++ subBA (some '=') X = ' ' :: ('=' :: subBA (some '=') X) from by
      rw [show cs " =" = ' ' :: '=' :: ([] : CS) from by decide]; rfl]
    simp only [List.append_assoc, List.cons_append]
    rw [show cs "ytesOut<?> " = cs "ytesOut" ++ cs "<?> " from by decide, List.append_assoc]

theorem subBA_idem_aux : ∀ (n : Nat) (x : CS), x.length ≤ n → ∀ prev : Option Char,
    subBA prev (subBA prev x) = subBA prev x := by
  intro n
  induction n with
  | zero =>
    intro x hlen prev
    cases x with
    | nil => rw [subBA_nil, subBA_nil]
    | cons c rest => simp at hlen
  | succ n ih =>
    intro x hlen prev
    cases x with
    | nil => rw [subBA_nil, subBA_nil]
    | cons c rest =>
      rw [List.length_cons] at hlen
      by_cases hb : (match prev with | none => true | some p => !isWordChar p) = true
      · cases hm : baMatch (c :: rest) with
        | none =>
          rw [subBA_copy_nomatch prev hm]
          rw [subBA_copy_nomatch prev (baMatch_none_scan hm)]
          rw [ih rest (by omega) (some c)]
        | some pr =>
          obtain ⟨idt, y4⟩ := pr
          rw [subBA_hit hb hm]
          obtain ⟨hne, hword⟩ := baMatch_props hm
          rw [subBA_scan_repl prev idt _ hword hne]
          have hy4 : y4.length < rest.length + 1 := by
            have h5 := baMatch_length hm
            simpa using h5
          rw [ih y4 (by omega) (some '=')]
      · obtain ⟨p, rfl, hpw⟩ : ∃ p, prev = some p ∧ isWordChar p = true := by
          cases prev with
          | none => simp at hb
          | some p =>
            cases hw : isWordChar p with
            | true => exact ⟨p, rfl, hw⟩
            | false => exact absurd (by simp [hw]) hb
        rw [subBA_copy_bfail hpw, subBA_copy_bfail hpw]
        rw [ih rest (by omega) (some c)]

theorem subBA_idem (x : CS) : subBA none (subBA none x) = subBA none x :=
  subBA_idem_aux x.length x le_rfl none

/-! Idempotence of the `fix_node_tests.py` rewrite: the replacement text can
never take part in a match of the DOTALL pattern, because the pattern's rigid
components do not occur in (or across the boundaries of) the replacement,
while every matched span itself contains instances of all components. -/

/-- A full-pattern match starts at the head of `y`. -/
def mAt (l0 : CS) (ps : List RTok) (y : CS) : Bool :=
  stw l0 y && (matchSeq ps (y.drop l0.length)).isSome

theorem matchSeq_suffix : ∀ (ps : List RTok) (y r : CS), matchSeq ps y = some r →
    ∃ w, y = w ++ r
  | [], y, r => by
    intro h
    rw [matchSeq] at h
    simp only [Option.some.injEq] at h
    exact ⟨[], by simp [h]⟩
  | RTok.lit l :: ps, y, r => by
    intro h
    rw [matchSeq] at h
    split at h
    next hstw =>
      obtain ⟨w, hw⟩ := matchSeq_suffix ps (y.drop l.length) r h
      refine ⟨l ++ w, ?_⟩
      rw [List.append_assoc, ← hw]
      exact stw_drop_decomp hstw
    next => exact absurd h (by simp)
  | RTok.digits :: ps, y, r => by
    intro h
    rw [matchSeq] at h
    split at h
    · exact absurd h (by simp)
    · obtain ⟨w, hw⟩ := matchSeq_suffix ps (y.dropWhile isDigitCh) r h
      refine ⟨y.takeWhile isDigitCh ++ w, ?_⟩
      rw [List.append_assoc, ← hw]
      exact (List.takeWhile_append_dropWhile _ _).symm
  | RTok.optHashB :: ps, y, r => by
    intro h
    rw [matchSeq] at h
    split at h
    next c yr heq =>
      split at h
      · obtain ⟨w, hw⟩ := matchSeq_suffix ps yr r h
        by_cases hh : stw hashTok y = true
        · rw [if_pos hh] at heq
          refine ⟨hashTok ++ (c :: w), ?_⟩
          rw [stw_drop_decomp hh, heq, hw]
          simp
        · rw [if_neg hh] at heq
          exact ⟨c :: w, by rw [heq, hw]; rfl⟩
      · exact absurd h (by simp)
    next => exact absurd h (by simp)
  | RTok.gap :: ps, y, r => by
    intro h
    rw [matchSeq.eq_def] at h
    simp only [] at h
    rcases hm : matchSeq ps y with _ | r0
    · rw [hm] at h
      simp only [Option.orElse] at h
      cases y with
      | nil => exact absurd h (by simp)
      | cons c yr =>
        obtain ⟨w, hw⟩ := matchSeq_suffix (RTok.gap :: ps) yr r h
        exact ⟨c :: w, by rw [hw]; rfl⟩
    · rw [hm] at h
      simp only [Option.orElse, Option.some.injEq] at h
      subst h
      exact matchSeq_suffix ps y r0 hm
termination_by ps y => (ps.length, y.length)
decreasing_by
  all_goals first
    | (apply Prod.Lex.right; simp)
    | (apply Prod.Lex.left; simp)

theorem gap_fwd : ∀ (ps : List RTok) (y r : CS), matchSeq (RTok.gap :: ps) y = some r →
    ∃ k, matchSeq ps (y.drop k) = some r
  | ps, y, r => by
    intro h
    rw [matchSeq.eq_def] at h
    simp only [] at h
    rcases hm : matchSeq ps y with _ | r0
    · rw [hm] at h
      simp only [Option.orElse] at h
      cases y with
      | nil => exact absurd h (by simp)
      | cons c yr =>
        obtain ⟨k, hk⟩ := gap_fwd ps yr r h
        exact ⟨k + 1, by simpa using hk⟩
    · rw [hm] at h
      simp only [Option.orElse, Option.some.injEq] at h
      subst h
      exact ⟨0, hm⟩
termination_by _ y => y.length

theorem gap_back : ∀ (k : Nat) (ps : List RTok) (y r : CS),
    matchSeq ps (y.drop k) = some r → (matchSeq (RTok.gap :: ps) y).isSome = true := by
  intro k
  induction k with
  | zero =>
    intro ps y r h
    rw [List.drop_zero] at h
    rw [matchSeq.eq_def]
    simp only []
    rw [h]
    simp [Option.orElse]
  | succ k ih =>
    intro ps y r h
    cases y with
    | nil =>
      rw [List.drop_nil] at h
      rw [matchSeq.eq_def]
      simp only []
      rw [h]
      simp [Option.orElse]
    | cons c yr =>
      have h2 : matchSeq ps (yr.drop k) = some r := h
      have h3 := ih ps yr r h2
      rw [matchSeq.eq_def]
      simp only []
      rcases hm : matchSeq ps (c :: yr) with _ | r0
      · simpa [Option.orElse] using h3
      · simp [Option.orElse]

def noGapB : List RTok → Bool
  | [] => true
  | RTok.gap :: _ => false
  | _ :: ps => noGapB ps

theorem msplit : ∀ (g ps : List RTok) (y r : CS), noGapB g = true →
    matchSeq (g ++ ps) y = some r →
    ∃ r1, matchSeq g y = some r1 ∧ matchSeq ps r1 = some r
  | [], ps, y, r => by
    intro _ h
    exact ⟨y, by rw [matchSeq], h⟩
  | RTok.lit l :: g, ps, y, r => by
    intro hng h
    rw [List.cons_append, matchSeq] at h
    split at h
    next hstw =>
      obtain ⟨r1, h1, h2⟩ := msplit g ps (y.drop l.length) r (by simpa [noGapB] using hng) h
      refine ⟨r1, ?_, h2⟩
      rw [matchSeq, if_pos hstw]
      exact h1
    next => exact absurd h (by simp)
  | RTok.digits :: g, ps, y, r => by
    intro hng h
    rw [List.cons_append, matchSeq] at h
    split at h
    · exact absurd h (by simp)
    next hne =>
      obtain ⟨r1, h1, h2⟩ := msplit g ps (y.dropWhile isDigitCh) r
        (by simpa [noGapB] using hng) h
      refine ⟨r1, ?_, h2⟩
      rw [matchSeq]
      rw [if_neg hne]
      exact h1
  | RTok.optHashB :: g, ps, y, r => by
    intro hng h
    rw [List.cons_append, matchSeq] at h
    split at h
    next c yr heq =>
      split at h
      next hc =>
        obtain ⟨r1, h1, h2⟩ := msplit g ps yr r (by simpa [noGapB] using hng) h
        refine ⟨r1, ?_, h2⟩
        rw [matchSeq, heq]
        show (if (c == 'B' || c == 'b') = true then matchSeq g yr else none) = some r1
        rw [if_pos hc]
        exact h1
      · exact absurd h (by simp)
    next heq => exact absurd h (by simp)
  | RTok.gap :: g, ps, y, r => by
    intro hng
    simp [noGapB] at hng

theorem mjoin : ∀ (g ps : List RTok) (y r1 r : CS), noGapB g = true →
    matchSeq g y = some r1 → matchSeq ps r1 = some r → matchSeq (g ++ ps) y = some r
  | [], ps, y, r1, r => by
    intro _ h1 h2
    rw [matchSeq] at h1
    simp only [Option.some.injEq] at h1
    rw [← h1] at h2
    exact h2
  | RTok.lit l :: g, ps, y, r1, r => by
    intro hng h1 h2
    rw [matchSeq] at h1
    split at h1
    next hstw =>
      rw [List.cons_append, matchSeq, if_pos hstw]
      exact mjoin g ps _ r1 r (by simpa [noGapB] using hng) h1 h2
    next => exact absurd h1 (by simp)
  | RTok.digits :: g, ps, y, r1, r => by
    intro hng h1 h2
    rw [matchSeq] at h1
    split at h1
    · exact absurd h1 (by simp)
    next hne =>
      rw [List.cons_append, matchSeq, if_neg hne]
      exact mjoin g ps _ r1 r (by simpa [noGapB] using hng) h1 h2
  | RTok.optHashB :: g, ps, y, r1, r => by
    intro hng h1 h2
    rw [matchSeq] at h1
    split at h1
    next c yr heq =>
      split at h1
      next hc =>
        rw [List.cons_append, matchSeq, heq]
        show (if (c == 'B' || c == 'b') = true then matchSeq (g ++ ps) yr else none) = some r
        rw [if_pos hc]
        exact mjoin g ps _ r1 r (by simpa [noGapB] using hng) h1 h2
      · exact absurd h1 (by simp)
    next => exact absurd h1 (by simp)
  | RTok.gap :: g, ps, y, r1, r => by
    intro hng
    simp [noGapB] at hng

def gwfB : List RTok → Bool
  | [] => true
  | RTok.lit l :: ps => !l.isEmpty && l.all (fun ch => ch != '/') && gwfB ps
  | RTok.digits :: ps =>
    (match ps with
     | RTok.lit l2 :: _ =>
       match l2 with
       | c :: _ => !isDigitCh c
       | [] => false
     | _ => false) && gwfB ps
  | RTok.optHashB :: ps => gwfB ps
  | RTok.gap :: _ => false

def headP : List RTok → CS → Prop
  | RTok.lit l :: _, w => stw l w = true
  | _, _ => True

theorem digit_ne_slash {ch : Char} (h : isDigitCh ch = true) : ch ≠ '/' := by
  intro he
  subst he
  exact absurd h (by decide)

theorem stw_cons_ne {a b : Char} (h : b ≠ a) (p x : CS) :
    stw (b :: p) (a :: x) = false := by
  simp only [stw, Bool.and_eq_false_iff]
  left
  exact beq_eq_false_iff_ne.mpr h

theorem gext : ∀ (g : List RTok) (y r : CS), gwfB g = true → matchSeq g y = some r →
    ∃ w, y = w ++ r ∧ (g ≠ [] → w ≠ []) ∧ (∀ ch ∈ w, ch ≠ '/') ∧
      (∀ z, matchSeq g (w ++ z) = some z) ∧ headP g w
  | [], y, r => by
    intro _ h
    rw [matchSeq] at h
    simp only [Option.some.injEq] at h
    refine ⟨[], by simp [h], by simp, by simp, ?_, trivial⟩
    intro z
    rw [matchSeq]
    simp
  | RTok.lit l :: g, y, r => by
    intro hwf h
    simp only [gwfB, Bool.and_eq_true, List.all_eq_true] at hwf
    obtain ⟨⟨hlne, hlsl⟩, hwf2⟩ := hwf
    rw [matchSeq] at h
    split at h
    next hstw =>
      obtain ⟨w2, hw2, _, hsl2, hrep2, _⟩ := gext g (y.drop l.length) r hwf2 h
      refine ⟨l ++ w2, ?_, ?_, ?_, ?_, ?_⟩
      · rw [List.append_assoc, ← hw2]
        exact stw_drop_decomp hstw
      · intro _ hc
        rcases List.append_eq_nil.mp hc with ⟨hl, _⟩
        rw [hl] at hlne
        exact absurd hlne (by simp)
      · intro ch hch
        rcases List.mem_append.mp hch with hh | hh
        · simpa using hlsl ch hh
        · exact hsl2 ch hh
      · intro z
        rw [matchSeq, List.append_assoc]
        rw [if_pos (stw_append _ (stw_refl l))]
        rw [List.drop_left]
        exact hrep2 z
      · show stw l (l ++ w2) = true
        exact stw_append _ (stw_refl l)
    next => exact absurd h (by simp)
  | RTok.digits :: g, y, r => by
    intro hwf h
    simp only [gwfB, Bool.and_eq_true] at hwf
    obtain ⟨hshape, hwf2⟩ := hwf
    rw [matchSeq] at h
    split at h
    · exact absurd h (by simp)
    next hne =>
      obtain ⟨w2, hw2, _, hsl2, hrep2, hhp⟩ := gext g (y.dropWhile isDigitCh) r hwf2 h
      have htwall : ∀ ch ∈ y.takeWhile isDigitCh, isDigitCh ch = true :=
        fun ch hch => List.mem_takeWhile_imp hch
      have htwne : y.takeWhile isDigitCh ≠ [] := by
        intro hz
        rw [hz] at hne
        exact hne (by simp)
      cases g with
      | nil => simp at hshape
      | cons t g2 =>
        cases t with
        | digits => simp at hshape
        | optHashB => simp at hshape
        | gap => simp at hshape
        | lit l2 =>
          cases l2 with
          | nil => simp at hshape
          | cons c0 l2t =>
            have hc0 : isDigitCh c0 = false := by simpa using hshape
            have hhp2 : stw (c0 :: l2t) w2 = true := hhp
            obtain ⟨v2, hv2⟩ := stw_iff.mp hhp2
            refine ⟨y.takeWhile isDigitCh ++ w2, ?_, ?_, ?_, ?_, trivial⟩
            · rw [List.append_assoc, ← hw2]
              exact (List.takeWhile_append_dropWhile _ _).symm
            · intro _ hnil
              rcases List.append_eq_nil.mp hnil with ⟨h1, _⟩
              exact absurd h1 htwne
            · intro ch hch
              rcases List.mem_append.mp hch with hh | hh
              · exact digit_ne_slash (htwall ch hh)
              · exact hsl2 ch hh
            · intro z
              have hw2c : w2 ++ z = c0 :: (l2t ++ (v2 ++ z)) := by
                rw [hv2]
                simp [List.append_assoc]
              rw [matchSeq, List.append_assoc, hw2c]
              rw [tw_append_all _ htwall, tw_cons_neg _ hc0, List.append_nil]
              rw [if_neg (by simp [List.isEmpty_iff, htwne])]
              rw [dw_append_all _ htwall, dw_cons_neg _ hc0]
              have h6 := hrep2 z
              rw [hw2c] at h6
              exact h6
  | RTok.optHashB :: g, y, r => by
    intro hwf h
    have hwf2 : gwfB g = true := by simpa [gwfB] using hwf
    rw [matchSeq] at h
    split at h
    next c yr heq =>
      split at h
      next hc =>
        obtain ⟨w2, hw2, _, hsl2, hrep2, _⟩ := gext g yr r hwf2 h
        have hcBb : c = 'B' ∨ c = 'b' := by
          simp only [Bool.or_eq_true, beq_iff_eq] at hc
          exact hc
        have hcs : c ≠ '/' := by rcases hcBb with rfl | rfl <;> decide
        have hcnh : ('h' : Char) ≠ c := by rcases hcBb with rfl | rfl <;> decide
        by_cases hh : stw hashTok y = true
        · rw [if_pos hh] at heq
          refine ⟨hashTok ++ (c :: w2), ?_, ?_, ?_, ?_, trivial⟩
          · rw [stw_drop_decomp hh, heq, hw2]
            simp [List.append_assoc]
          · intro _ hnil
            rcases List.append_eq_nil.mp hnil with ⟨h1, _⟩
            exact absurd h1 (by decide)
          · intro ch hch
            rcases List.mem_append.mp hch with hh2 | hh2
            · exact (by decide : ∀ ch2 ∈ hashTok, ch2 ≠ '/') ch hh2
            · rcases List.mem_cons.mp hh2 with rfl | hh3
              · exact hcs
              · exact hsl2 ch hh3
          · intro z
            rw [matchSeq]
            have harr : (hashTok ++ (c :: w2)) ++ z = hashTok ++ (c :: (w2 ++ z)) := by
              simp [List.append_assoc]
            rw [harr, if_pos (stw_append _ (stw_refl hashTok)), List.drop_left]
            show (if (c == 'B' || c == 'b') = true then matchSeq g (w2 ++ z) else none)
              = some z
            rw [if_pos hc]
            exact hrep2 z
        · rw [if_neg hh] at heq
          refine ⟨c :: w2, ?_, ?_, ?_, ?_, trivial⟩
          · rw [heq, hw2]
            rfl
          · intro _ hnil
            simp at hnil
          · intro ch hch
            rcases List.mem_cons.mp hch with rfl | hh3
            · exact hcs
            · exact hsl2 ch hh3
          · intro z
            rw [matchSeq]
            have hstwf : stw hashTok (c :: (w2 ++ z)) = false := by
              rw [show hashTok = 'h' :: cs "ash" from by decide]
              exact stw_cons_ne hcnh _ _
            rw [if_neg (by simp [hstwf])]
            rw [List.cons_append]
            show (if (c == 'B' || c == 'b') = true then matchSeq g (w2 ++ z) else none)
              = some z
            rw [if_pos hc]
            exact hrep2 z
      · exact absurd h (by simp)
    next => exact absurd h (by simp)
  | RTok.gap :: g, y, r => by
    intro hwf
    simp [gwfB] at hwf

def nodeG1 (cls : CS) : List RTok :=
  [RTok.lit (nodeG2a cls), RTok.digits, RTok.lit (cs "L,")]
def nodeG2 : List RTok := [RTok.lit (cs ");")]
def nodeG3 : List RTok :=
  [RTok.lit (cs "var "), RTok.optHashB, RTok.lit (cs "ytes = Bytes.elasticHeapByteBuffer();")]
def nodeG4 : List RTok :=
  [RTok.lit (cs "node.setHash(node.computeHash("), RTok.optHashB, RTok.lit (cs "ytes));")]
def nodeG5 : List RTok := [RTok.lit (cs "check(node);")]

def nodeGroups (cls : CS) : List (List RTok) :=
  [nodeG1 cls, nodeG2, nodeG3, nodeG4, nodeG5]

theorem nodePs_eq (cls : CS) : nodePs cls =
    RTok.gap :: (nodeG1 cls ++ (RTok.gap :: (nodeG2 ++ (RTok.gap ::
      (nodeG3 ++ (RTok.gap :: (nodeG4 ++ (RTok.gap :: nodeG5)))))))) := rfl

def GEx : List (List RTok) → CS → Prop
  | [], _ => True
  | g :: gs, y => ∃ k r, matchSeq g (y.drop k) = some r ∧ GEx gs r

def GChain : List (List RTok) → CS → CS → Prop
  | [], y, rf => rf = y
  | g :: gs, y, rf => ∃ k r, matchSeq g (y.drop k) = some r ∧ GChain gs r rf

theorem GChain_GEx : ∀ (gs : List (List RTok)) (y rf : CS), GChain gs y rf → GEx gs y
  | [], _, _ => fun _ => trivial
  | g :: gs, y, rf => fun h => by
    obtain ⟨k, r, hm, hc⟩ := h
    exact ⟨k, r, hm, GChain_GEx gs r rf hc⟩

theorem GEx_drop_lift : ∀ (gs : List (List RTok)) (y : CS) (m : Nat),
    GEx gs (y.drop m) → GEx gs y
  | [], _, _ => fun _ => trivial
  | g :: gs, y, m => fun h => by
    obtain ⟨k, r, hm, hc⟩ := h
    refine ⟨k + m, r, ?_, hc⟩
    rw [List.drop_drop, Nat.add_comm] at hm
    exact hm

theorem GEx_append_lift (gs : List (List RTok)) (u r : CS) (h : GEx gs r) :
    GEx gs (u ++ r) := by
  refine GEx_drop_lift gs (u ++ r) u.length ?_
  rw [List.drop_left]
  exact h

theorem chainf (cls : CS) (t rf : CS) (h : matchSeq (nodePs cls) t = some rf) :
    GChain (nodeGroups cls) t rf := by
  rw [nodePs_eq] at h
  obtain ⟨k1, h1⟩ := gap_fwd _ _ _ h
  obtain ⟨r1, h1a, h1b⟩ := msplit (nodeG1 cls) _ _ _ rfl h1
  obtain ⟨k2, h2⟩ := gap_fwd _ _ _ h1b
  obtain ⟨r2, h2a, h2b⟩ := msplit nodeG2 _ _ _ rfl h2
  obtain ⟨k3, h3⟩ := gap_fwd _ _ _ h2b
  obtain ⟨r3, h3a, h3b⟩ := msplit nodeG3 _ _ _ rfl h3
  obtain ⟨k4, h4⟩ := gap_fwd _ _ _ h3b
  obtain ⟨r4, h4a, h4b⟩ := msplit nodeG4 _ _ _ rfl h4
  obtain ⟨k5, h5⟩ := gap_fwd _ _ _ h4b
  exact ⟨k1, r1, h1a, k2, r2, h2a, k3, r3, h3a, k4, r4, h4a, k5, rf, h5, rfl⟩

theorem compl (cls : CS) (t : CS) (h : GEx (nodeGroups cls) t) :
    (matchSeq (nodePs cls) t).isSome = true := by
  obtain ⟨k1, r1, h1, k2, r2, h2, k3, r3, h3, k4, r4, h4, k5, r5, h5, -⟩ := h
  rw [nodePs_eq]
  have b5 : (matchSeq (RTok.gap :: nodeG5) r4).isSome = true := gap_back k5 _ _ _ h5
  obtain ⟨q5, hq5⟩ := Option.isSome_iff_exists.mp b5
  have j4 : matchSeq (nodeG4 ++ (RTok.gap :: nodeG5)) (r3.drop k4) = some q5 :=
    mjoin _ _ _ _ _ rfl h4 hq5
  have b4 := gap_back k4 _ _ _ j4
  obtain ⟨q4, hq4⟩ := Option.isSome_iff_exists.mp b4
  have j3 : matchSeq (nodeG3 ++ (RTok.gap :: (nodeG4 ++ (RTok.gap :: nodeG5))))
      (r2.drop k3) = some q4 := mjoin _ _ _ _ _ rfl h3 hq4
  have b3 := gap_back k3 _ _ _ j3
  obtain ⟨q3, hq3⟩ := Option.isSome_iff_exists.mp b3
  have j2 : matchSeq (nodeG2 ++ (RTok.gap :: (nodeG3 ++ (RTok.gap ::
      (nodeG4 ++ (RTok.gap :: nodeG5)))))) (r1.drop k2) = some q3 :=
    mjoin _ _ _ _ _ rfl h2 hq3
  have b2 := gap_back k2 _ _ _ j2
  obtain ⟨q2, hq2⟩ := Option.isSome_iff_exists.mp b2
  have j1 : matchSeq (nodeG1 cls ++ (RTok.gap :: (nodeG2 ++ (RTok.gap ::
      (nodeG3 ++ (RTok.gap :: (nodeG4 ++ (RTok.gap :: nodeG5)))))))) (t.drop k1) = some q2 :=
    mjoin _ _ _ _ _ rfl h1 hq2
  exact gap_back k1 _ _ _ j1

theorem span_chain_suffix : ∀ (gs : List (List RTok)) (t rf : CS), GChain gs t rf →
    ∀ i, GEx (gs.drop i) t
  | [], t, rf => by
    intro _ i
    rw [List.drop_nil]
    trivial
  | g :: gs, t, rf => by
    intro hch i
    obtain ⟨k, r, hm, hch2⟩ := hch
    cases i with
    | zero => exact GChain_GEx _ _ _ ⟨k, r, hm, hch2⟩
    | succ i2 =>
      have hih := span_chain_suffix gs r rf hch2 i2
      obtain ⟨w, hw⟩ := matchSeq_suffix _ _ _ hm
      show GEx (gs.drop i2) t
      refine GEx_drop_lift _ _ k ?_
      rw [hw]
      exact GEx_append_lift _ _ _ hih

/-- Relates an input to its `regexSub` output: characters at which no match
starts are copied, matched spans are replaced by `repl`. -/
inductive OutRel (l0 : CS) (ps : List RTok) (repl : CS) : CS → CS → Prop
  | nil : OutRel l0 ps repl [] []
  | copy (c : Char) (x y : CS) (hno : mAt l0 ps (c :: x) = false)
      (h : OutRel l0 ps repl x y) : OutRel l0 ps repl (c :: x) (c :: y)
  | hit (c : Char) (rest r y : CS) (hstw : stw l0 (c :: rest) = true)
      (hm : matchSeq ps ((c :: rest).drop l0.length) = some r)
      (h : OutRel l0 ps repl r y) : OutRel l0 ps repl (c :: rest) (repl ++ y)

theorem regexSub_nil (l0 : CS) (ps : List RTok) (repl : CS) :
    regexSub l0 ps repl [] = [] := by
  rw [regexSub.eq_def]

theorem regexSub_copy {l0 : CS} (ps : List RTok) (repl : CS) {c : Char} {rest : CS}
    (hl0 : l0 ≠ []) (hno : mAt l0 ps (c :: rest) = false) :
    regexSub l0 ps repl (c :: rest) = c :: regexSub l0 ps repl rest := by
  conv_lhs => rw [regexSub.eq_def]
  split
  next heq => exact absurd heq (by simp)
  next c2 rest2 heq =>
    injection heq with h1 h2
    subst h1
    subst h2
    rw [if_neg (by simp [List.isEmpty_iff, hl0])]
    cases hstw : stw l0 (c :: rest) with
    | false => rw [dif_neg (by simp)]
    | true =>
      rw [dif_pos rfl]
      have hms : matchSeq ps ((c :: rest).drop l0.length) = none := by
        simp only [mAt, hstw, Bool.true_and] at hno
        cases hmm : matchSeq ps ((c :: rest).drop l0.length) with
        | none => rfl
        | some r => rw [hmm] at hno; exact absurd hno (by simp)
      split
      next r hm => rw [hms] at hm; exact absurd hm (by simp)
      next => rfl

theorem regexSub_hit {l0 : CS} (ps : List RTok) (repl : CS) {c : Char} {rest r : CS}
    (hl0 : l0 ≠ []) (hstw : stw l0 (c :: rest) = true)
    (hm : matchSeq ps ((c :: rest).drop l0.length) = some r) :
    regexSub l0 ps repl (c :: rest) = repl ++ regexSub l0 ps repl r := by
  conv_lhs => rw [regexSub.eq_def]
  split
  next heq => exact absurd heq (by simp)
  next c2 rest2 heq =>
    injection heq with h1 h2
    subst h1
    subst h2
    rw [if_neg (by simp [List.isEmpty_iff, hl0]), dif_pos hstw]
    split
    next r2 hm2 =>
      rw [hm] at hm2
      injection hm2 with hm3
      rw [hm3]
    next hm2 => rw [hm] at hm2; exact absurd hm2 (by simp)

theorem regexSub_outRel (l0 : CS) (ps : List RTok) (repl : CS) (hl0 : l0 ≠ []) :
    ∀ (n : Nat) (x : CS), x.length ≤ n → OutRel l0 ps repl x (regexSub l0 ps repl x) := by
  intro n
  induction n with
  | zero =>
    intro x hlen
    cases x with
    | nil => rw [regexSub_nil]; exact OutRel.nil
    | cons c rest => simp at hlen
  | succ n ih =>
    intro x hlen
    cases x with
    | nil => rw [regexSub_nil]; exact OutRel.nil
    | cons c rest =>
      rw [List.length_cons] at hlen
      cases hstw : stw l0 (c :: rest) with
      | false =>
        rw [regexSub_copy ps repl hl0 (by simp [mAt, hstw])]
        exact OutRel.copy c rest _ (by simp [mAt, hstw]) (ih rest (by omega))
      | true =>
        cases hm : matchSeq ps ((c :: rest).drop l0.length) with
        | none =>
          rw [regexSub_copy ps repl hl0 (by simp [mAt, hstw, hm])]
          exact OutRel.copy c rest _ (by simp [mAt, hstw, hm]) (ih rest (by omega))
        | some r =>
          rw [regexSub_hit ps repl hl0 hstw hm]
          have hr : r.length ≤ rest.length + 1 - l0.length := by
            have h1 := matchSeq_le ps _ r hm
            simp only [List.length_drop, List.length_cons] at h1
            omega
          have hl0p : 0 < l0.length := List.length_pos.mpr hl0
          exact OutRel.hit c rest r _ hstw hm (ih r (by omega))

theorem pref {l0 : CS} {ps : List RTok} {repl : CS} (hrepl : ∃ rt, repl = '/' :: rt)
    {x y : CS} (h : OutRel l0 ps repl x y) :
    ∀ w v, y = w ++ v → (∀ ch ∈ w, ch ≠ '/') →
      ∃ x2, x = w ++ x2 ∧ OutRel l0 ps repl x2 v := by
  induction h with
  | nil =>
    intro w v heq hsl
    obtain ⟨hw, hv⟩ := List.append_eq_nil.mp heq.symm
    subst hw
    subst hv
    exact ⟨[], rfl, OutRel.nil⟩
  | copy c x' y' hno hrel ih =>
    intro w v heq hsl
    cases w with
    | nil =>
      refine ⟨c :: x', rfl, ?_⟩
      rw [List.nil_append] at heq
      rw [← heq]
      exact OutRel.copy c x' y' hno hrel
    | cons a w2 =>
      rw [List.cons_append] at heq
      injection heq with h1 h2
      obtain ⟨x2, hx2, hrel2⟩ := ih w2 v h2 (fun ch hch => hsl ch (List.mem_cons_of_mem a hch))
      refine ⟨x2, ?_, hrel2⟩
      rw [List.cons_append, ← h1, hx2]
  | hit c rest r y3 hstw hm hrel ih =>
    intro w v heq hsl
    cases w with
    | nil =>
      refine ⟨c :: rest, rfl, ?_⟩
      rw [List.nil_append] at heq
      rw [← heq]
      exact OutRel.hit c rest r y3 hstw hm hrel
    | cons a w2 =>
      obtain ⟨rt, hrt⟩ := hrepl
      rw [hrt, List.cons_append, List.cons_append] at heq
      injection heq with h1 h2
      exact absurd h1.symm (hsl a (by simp))
  
theorem droprel {l0 : CS} {ps : List RTok} {repl : CS} {x y : CS}
    (h : OutRel l0 ps repl x y) : ∀ (n : Nat),
    (∃ x2 y2, OutRel l0 ps repl x2 y2 ∧ y.drop n = y2) ∨
    (∃ k y3 x3, k < repl.length ∧ y.drop n = repl.drop k ++ y3 ∧ OutRel l0 ps repl x3 y3) := by
  induction h with
  | nil =>
    intro n
    left
    exact ⟨[], [], OutRel.nil, by simp⟩
  | copy c x' y' hno hrel ih =>
    intro n
    cases n with
    | zero =>
      left
      exact ⟨c :: x', c :: y', OutRel.copy c x' y' hno hrel, rfl⟩
    | succ m =>
      rw [List.drop_succ_cons]
      exact ih m
  | hit c rest r y3 hstw hm hrel ih =>
    intro n
    cases n with
    | zero =>
      left
      exact ⟨c :: rest, repl ++ y3, OutRel.hit c rest r y3 hstw hm hrel, rfl⟩
    | succ m =>
      by_cases hn : m + 1 < repl.length
      · right
        refine ⟨m + 1, y3, r, hn, ?_, hrel⟩
        rw [List.drop_append_eq_append_drop]
        have hz : m + 1 - repl.length = 0 := by omega
        rw [hz, List.drop_zero]
      · have he : (repl ++ y3).drop (m + 1) = y3.drop (m + 1 - repl.length) := by
          rw [List.drop_append_eq_append_drop]
          rw [List.drop_eq_nil_of_le (by omega), List.nil_append]
        rw [he]
        exact ih (m + 1 - repl.length)

theorem nodeGroups_ne (cls : CS) : ∀ g ∈ nodeGroups cls, g ≠ [] := by
  intro g hg
  simp only [nodeGroups, List.mem_cons, List.not_mem_nil, or_false] at hg
  rcases hg with rfl | rfl | rfl | rfl | rfl
  · simp [nodeG1]
  · simp [nodeG2]
  · simp [nodeG3]
  · simp [nodeG4]
  · simp [nodeG5]

theorem gtrans (cls repl : CS) (hrepl : ∃ rt, repl = '/' :: rt)
    (hwfall : ∀ g ∈ nodeGroups cls, gwfB g = true) :
    ∀ (N : Nat) (y : CS), y.length ≤ N → ∀ (x : CS) (i : Nat),
      OutRel nodeL1 (nodePs cls) repl x y →
      GEx ((nodeGroups cls).drop i) y → GEx ((nodeGroups cls).drop i) x := by
  intro N
  induction N with
  | zero =>
    intro y hlen x i hrel hex
    cases hrel with
    | nil => exact hex
    | copy c x' y' hno hrel2 => simp at hlen
    | hit c rest r y3 hstw hm hrel2 =>
      obtain ⟨rt, hrt⟩ := hrepl
      rw [hrt] at hlen
      simp at hlen
  | succ N ih =>
    intro y hlen x i hrel hex
    cases hrel with
    | nil => exact hex
    | copy c x' y' hno hrel2 =>
      cases hgs : (nodeGroups cls).drop i with
      | nil => trivial
      | cons g tl =>
        have hdrop1 : (nodeGroups cls).drop (i + 1) = tl := by
          have h1 : (nodeGroups cls).drop (i + 1) = ((nodeGroups cls).drop i).drop 1 := by
            rw [List.drop_drop, Nat.add_comm]
          rw [h1, hgs]
          simp
        rw [hgs] at hex
        obtain ⟨k, r1, hm1, hch⟩ := hex
        cases k with
        | zero =>
          rw [List.drop_zero] at hm1
          have hgmem : g ∈ nodeGroups cls := by
            have : g ∈ (nodeGroups cls).drop i := by
              rw [hgs]
              exact List.mem_cons_self g tl
            exact List.mem_of_mem_drop this
          obtain ⟨w, hw, hne2, hsl, hrep, -⟩ := gext g _ _ (hwfall g hgmem) hm1
          have hwne : w ≠ [] := hne2 (nodeGroups_ne cls g hgmem)
          obtain ⟨x2, hx2, hrel3⟩ :=
            pref hrepl (OutRel.copy c x' y' hno hrel2) w r1 hw hsl
          have hlr : r1.length ≤ N := by
            have h1 := congrArg List.length hw
            have h2 : 0 < w.length := List.length_pos.mpr hwne
            simp only [List.length_cons, List.length_append] at h1
            rw [List.length_cons] at hlen
            omega
          have hch2 : GEx ((nodeGroups cls).drop (i + 1)) r1 := by
            rw [hdrop1]
            exact hch
          have hih := ih r1 hlr x2 (i + 1) hrel3 hch2
          rw [hdrop1] at hih
          exact ⟨0, x2, by rw [List.drop_zero, hx2]; exact hrep x2, hih⟩
        | succ k2 =>
          have hex2 : GEx (g :: tl) y' := ⟨k2, r1, by simpa using hm1, hch⟩
          have hex2d : GEx ((nodeGroups cls).drop i) y' := by
            rw [hgs]
            exact hex2
          have hih := ih y' (by rw [List.length_cons] at hlen; omega) x' i hrel2 hex2d
          rw [hgs] at hih
          obtain ⟨k3, r3, hm3, hch3⟩ := hih
          exact ⟨k3 + 1, r3, by simpa using hm3, hch3⟩
    | hit c rest r y3 hstw hm hrel2 =>
      have hch := chainf cls _ _ hm
      have hsp := span_chain_suffix _ _ _ hch i
      exact GEx_drop_lift _ _ _ hsp

theorem node_top (cls repl : CS) (hrepl : ∃ rt, repl = '/' :: rt)
    (H4 : containsSub nodeL1 repl = false)
    (H5 : ∀ k, k < repl.length → stw (repl.drop k) nodeL1 = false)
    (hwf1 : gwfB (nodeG1 cls) = true) :
    ∀ (x : CS) (n : Nat),
      mAt nodeL1 (nodePs cls) ((regexSub nodeL1 (nodePs cls) repl x).drop n) = false := by
  have hwfall : ∀ g ∈ nodeGroups cls, gwfB g = true := by
    intro g hg
    simp only [nodeGroups, List.mem_cons, List.not_mem_nil, or_false] at hg
    rcases hg with rfl | rfl | rfl | rfl | rfl
    · exact hwf1
    · decide
    · decide
    · decide
    · decide
  intro x n
  by_contra hcon
  have hT : mAt nodeL1 (nodePs cls) ((regexSub nodeL1 (nodePs cls) repl x).drop n) = true := by
    cases hb : mAt nodeL1 (nodePs cls) ((regexSub nodeL1 (nodePs cls) repl x).drop n)
    · exact absurd hb hcon
    · rfl
  simp only [mAt, Bool.and_eq_true] at hT
  obtain ⟨hstw, hsome⟩ := hT
  have hrel0 := regexSub_outRel nodeL1 (nodePs cls) repl (by decide) x.length x le_rfl
  rcases droprel hrel0 n with ⟨x2, y2, rel2, hy2⟩ | ⟨k, y3, x3, hk, hy3, rel3⟩
  · rw [hy2] at hstw hsome
    obtain ⟨v, hv⟩ := stw_iff.mp hstw
    obtain ⟨x3, hx3, rel4⟩ := pref hrepl rel2 nodeL1 v hv (by decide)
    have hvdrop : y2.drop nodeL1.length = v := by rw [hv, List.drop_left]
    rw [hvdrop] at hsome
    obtain ⟨rf, hrf⟩ := Option.isSome_iff_exists.mp hsome
    have hgex := GChain_GEx _ _ _ (chainf cls v rf hrf)
    have hx3gex : GEx (nodeGroups cls) x3 := by
      have h6 := gtrans cls repl hrepl hwfall v.length v le_rfl x3 0 rel4
        (by rw [List.drop_zero]; exact hgex)
      rw [List.drop_zero] at h6
      exact h6
    have hx2At : mAt nodeL1 (nodePs cls) x2 = true := by
      simp only [mAt, Bool.and_eq_true]
      constructor
      · rw [hx3]
        exact stw_append _ (stw_refl _)
      · rw [hx3, List.drop_left]
        exact compl cls x3 hx3gex
    cases rel2 with
    | nil => exact absurd hstw (by decide)
    | copy c x' y' hno hrel5 => exact absurd hx2At (by simp [hno])
    | hit c2 rest2 r2 y32 hstw2 hm2 hrel5 =>
      obtain ⟨rt, hrt⟩ := hrepl
      rw [hrt] at hstw
      rw [show nodeL1 =
        'v' :: cs "ar segment = (MemorySegment) data.asBytesIn().getUnderlying();"
        from by decide] at hstw
      rw [List.cons_append, stw_cons_ne (by decide) _ _] at hstw
      exact absurd hstw (by simp)
  · rw [hy3] at hstw
    by_cases hlen : nodeL1.length ≤ repl.length - k
    · have h1 : stw nodeL1 (repl.drop k) = true := by
        refine stw_take _ _ _ hstw ?_
        simp only [List.length_drop]
        omega
      have h2 : containsSub nodeL1 repl = true := by
        obtain ⟨v2, hv2⟩ := stw_iff.mp h1
        refine containsSub_iff.mpr ⟨repl.take k, v2, ?_⟩
        conv_lhs => rw [← List.take_append_drop k repl]
        rw [hv2, ← List.append_assoc]
      exact absurd h2 (by simp [H4])
    · have h1 : stw (repl.drop k) nodeL1 = true := by
        refine stw_confine _ _ _ hstw ?_
        simp only [List.length_drop]
        omega
      exact absurd h1 (by simp [H5 k hk])

theorem regexSub_id {l0 : CS} (ps : List RTok) (repl : CS) (hl0 : l0 ≠ []) :
    ∀ (x : CS), (∀ n, mAt l0 ps (x.drop n) = false) → regexSub l0 ps repl x = x
  | [] => fun _ => regexSub_nil _ _ _
  | c :: rest => fun hall => by
    rw [regexSub_copy ps repl hl0 (by simpa using hall 0)]
    rw [regexSub_id ps repl hl0 rest (fun n => by simpa using hall (n + 1))]

theorem regexSub_node_idem (cls repl : CS) (hrepl : ∃ rt, repl = '/' :: rt)
    (H4 : containsSub nodeL1 repl = false)
    (H5 : ∀ k, k < repl.length → stw (repl.drop k) nodeL1 = false)
    (hwf1 : gwfB (nodeG1 cls) = true) (x : CS) :
    regexSub nodeL1 (nodePs cls) repl (regexSub nodeL1 (nodePs cls) repl x)
      = regexSub nodeL1 (nodePs cls) repl x :=
  regexSub_id _ _ (by decide) _ (node_top cls repl hrepl H4 H5 hwf1 x)

set_option maxHeartbeats 2000000 in
theorem kindFor_cases {b : CS} {p : CS × CS} (h : kindFor b = some p) :
    p ∈ ([(cs "BooleanNode", cs "BOOLEAN_VALUE"),
          (cs "NumberNode", cs "NUMBER_VALUE"),
          (cs "ObjectNumberNode", cs "OBJECT_NUMBER_VALUE"),
          (cs "ObjectNode", cs "OBJECT"),
          (cs "ArrayNode", cs "ARRAY"),
          (cs "StringNode", cs "STRING_VALUE"),
          (cs "ObjectStringNode", cs "OBJECT_STRING_VALUE"),
          (cs "ObjectBooleanNode", cs "OBJECT_BOOLEAN_VALUE"),
          (cs "NullNode", cs "NULL_VALUE"),
          (cs "ObjectNullNode", cs "OBJECT_NULL_VALUE"),
          (cs "ObjectKeyNode", cs "OBJECT_KEY")] : List (CS × CS)) := by
  unfold kindFor at h
  repeat' split at h
  all_goals first
    | (simp only [Option.some.injEq] at h
       subst h
       decide)
    | simp at h

theorem nodeRepl_head (cls kind : CS) :
    nodeRepl cls kind = '/' :: (nodeRepl cls kind).drop 1 := rfl

theorem stw_nodeL1_false {y : CS} (hy : ∀ ch ∈ y, (ch == 'v') = false) :
    stw nodeL1 y = false := by
  cases y with
  | nil => rfl
  | cons b t =>
    have hb := hy b (List.mem_cons_self b t)
    have hne : b ≠ 'v' := by intro h; subst h; simp at hb
    have hvb : ('v' == b) = false := by
      cases hq : ('v' == b) with
      | false => rfl
      | true => exact absurd (eq_of_beq hq).symm hne
    have hL : nodeL1 = 'v' :: nodeL1.drop 1 := rfl
    rw [hL]
    show ('v' == b && stw (nodeL1.drop 1) t) = false
    rw [hvb, Bool.false_and]

theorem containsSub_nodeL1_false {y : CS} (hy : ∀ ch ∈ y, (ch == 'v') = false) :
    containsSub nodeL1 y = false := by
  induction y with
  | nil => rfl
  | cons b t ih =>
    show (stw nodeL1 (b :: t) || containsSub nodeL1 t) = false
    rw [stw_nodeL1_false hy, ih (fun ch hch => hy ch (List.mem_cons_of_mem b hch)),
      Bool.or_self]

theorem H5_of_no_v {repl : CS} (hy : ∀ ch ∈ repl, (ch == 'v') = false)
    (k : Nat) (hk : k < repl.length) : stw (repl.drop k) nodeL1 = false := by
  cases hd : repl.drop k with
  | nil =>
    have hlen := congrArg List.length hd
    simp only [List.length_drop, List.length_nil] at hlen
    omega
  | cons c t =>
    have hm : c ∈ repl.drop k := by rw [hd]; exact List.mem_cons_self c t
    have hb := hy c (List.drop_subset k repl hm)
    have hL : nodeL1 = 'v' :: nodeL1.drop 1 := rfl
    rw [hL]
    show (c == 'v' && stw t (nodeL1.drop 1)) = false
    rw [hb, Bool.false_and]

theorem node_idem_of_no_v (cls kind : CS)
    (hv : ∀ ch ∈ nodeRepl cls kind, (ch == 'v') = false)
    (hwf1 : gwfB (nodeG1 cls) = true) (x : CS) :
    regexSub nodeL1 (nodePs cls) (nodeRepl cls kind)
        (regexSub nodeL1 (nodePs cls) (nodeRepl cls kind) x) =
      regexSub nodeL1 (nodePs cls) (nodeRepl cls kind) x :=
  regexSub_node_idem cls (nodeRepl cls kind) ⟨_, nodeRepl_head cls kind⟩
    (containsSub_nodeL1_false hv) (fun k hk => H5_of_no_v hv k hk) hwf1 x

set_option maxHeartbeats 4000000 in
theorem fixNodeTests_idem (b c : CS) :
    (fixNodeTestsContent b (fixNodeTestsContent b c).2).2 = (fixNodeTestsContent b c).2 := by
  cases hk : kindFor b with
  | none => simp [fixNodeTestsContent, hk]
  | some p =>
    obtain ⟨cls, kind⟩ := p
    have hmem := kindFor_cases hk
    have hidem : ∀ x, regexSub nodeL1 (nodePs cls) (nodeRepl cls kind)
        (regexSub nodeL1 (nodePs cls) (nodeRepl cls kind) x)
        = regexSub nodeL1 (nodePs cls) (nodeRepl cls kind) x := by
      intro x
      simp only [List.mem_cons, List.not_mem_nil, or_false] at hmem
      rcases hmem with h | h | h | h | h | h | h | h | h | h | h
      all_goals
        obtain ⟨rfl, rfl⟩ := Prod.mk.inj h
      all_goals
        exact node_idem_of_no_v _ _ (by decide) (by decide) x
    simp only [fixNodeTestsContent, hk]
    by_cases hch : regexSub nodeL1 (nodePs cls) (nodeRepl cls kind) c = c
    · simp [hch]
    · simp [hch, hidem c]

/-- C1 (amended): every fixed-string substitution in the system (the
rewind-call rewrite, the three Chronicle import replacements, the
`Bytes<ByteBuffer>` and `Bytes<byte[]>` rewrites and the two adapter-wrapping
substitutions) is idempotent on every input; the two import-insertion
transforms are idempotent as whole per-file functions; the
`\bBytes\s+(\w+)\s*=` regex rewrite to `BytesOut<?>` is idempotent on every
input; and the node-test segment-creation rewrite is idempotent as a whole
per-file function for every basename.  Only the two `computeHash`
capture-group substitutions are excluded: both variants are refuted by the
counterexample. -/
theorem c1_amended :
    (∀ x : CS, replaceAll rewindPat rewindRepl (replaceAll rewindPat rewindRepl x) =
      replaceAll rewindPat rewindRepl x) ∧
    (∀ x : CS, replaceAll chronBytesImp sirixOutImp
      (replaceAll chronBytesImp sirixOutImp x) = replaceAll chronBytesImp sirixOutImp x) ∧
    (∀ x : CS, replaceAll chronBytesInImp sirixInImp
      (replaceAll chronBytesInImp sirixInImp x) = replaceAll chronBytesInImp sirixInImp x) ∧
    (∀ x : CS, replaceAll chronBytesOutImp sirixOutImp
      (replaceAll chronBytesOutImp sirixOutImp x) = replaceAll chronBytesOutImp sirixOutImp x) ∧
    (∀ x : CS, replaceAll bbGeneric bytesOutQ (replaceAll bbGeneric bytesOutQ x) =
      replaceAll bbGeneric bytesOutQ x) ∧
    (∀ x : CS, replaceAll byteArrGeneric bytesOutQ (replaceAll byteArrGeneric bytesOutQ x) =
      replaceAll byteArrGeneric bytesOutQ x) ∧
    (∀ x : CS, replaceAll serPat serRepl (replaceAll serPat serRepl x) =
      replaceAll serPat serRepl x) ∧
    (∀ x : CS, replaceAll deserPat deserRepl (replaceAll deserPat deserRepl x) =
      replaceAll deserPat deserRepl x) ∧
    (∀ c : CS, (fixBytesContent (fixBytesContent c).2).2 = (fixBytesContent c).2) ∧
    (∀ c : CS, (fixTestImportsContent (fixTestImportsContent c).2).2 =
      (fixTestImportsContent c).2) ∧
    (∀ x : CS, subBA none (subBA none x) = subBA none x) ∧
    (∀ b c : CS,
      (fixNodeTestsContent b (fixNodeTestsContent b c).2).2 = (fixNodeTestsContent b c).2) :=
  ⟨fun x => replaceAll_idem (by decide) x,
   fun x => replaceAll_idem (by decide) x,
   fun x => replaceAll_idem (by decide) x,
   fun x => replaceAll_idem (by decide) x,
   fun x => replaceAll_idem (by decide) x,
   fun x => replaceAll_idem (by decide) x,
   fun x => replaceAll_idem (by decide) x,
   fun x => replaceAll_idem (by decide) x,
   fixBytes_idem, fixTI_idem, subBA_idem, fixNodeTests_idem⟩

end Spec2Proof
